import Mathlib

/-!
# A shallow embedding of `src/osmem.c`

The allocator keeps every block it knows about on one singly linked list rooted at
`head_list`.  The embedding represents that linked list by the Lean list of its
nodes in link order: each node carries the address of its header, its `size` field and
its `status` field, and the `next` link of a node is the following list element
(`NULL` for the last one).  A pointer to a header is resolved by its address.

`size_t` values are natural numbers; the additions and multiplications that the
program performs on caller-supplied sizes wrap modulo `2 ^ 64`, and an unsigned
subtraction wraps when it underflows.

The header `block_meta.h` is not part of the sources, so `sizeof(block_meta)` is the
parameter `hs` of every operation.

The operating-system primitives are modelled by their effect on the allocator's view:
`sbrk` returns the old break and moves it, `mmap` hands out a fresh page-aligned
address, and the arguments of `sbrk`, `munmap` and `memmove` calls are recorded in
logs (oldest first).  Memory contents are not modelled: the headers of distinct nodes
are taken not to overlap, and a `memmove` is recorded with its arguments but never
changes a node, also when its length exceeds the payload it writes to.  A sum of two `size` fields
measures an extent of memory and is taken exactly.
-/

set_option autoImplicit false

namespace OsMem

/-- The three values of the `status` field of a header. -/
inductive Status where
  | FREE
  | ALLOC
  | MAPPED
deriving DecidableEq, Repr

/-- A node of the global list: header address, `size` field, `status` field. -/
structure Block where
  addr : Nat
  size : Nat
  status : Status
deriving DecidableEq, Repr

/-- The process-wide allocator state together with the operating-system view. -/
structure State where
  /-- the list rooted at `head_list`, in link order; `[]` is `head_list == NULL` -/
  blocks : List Block
  /-- the flag `prealloc_heap` (`false` is `0`) -/
  prealloc_heap : Bool
  /-- the current program break -/
  brk : Nat
  /-- lower bound for the address of the next anonymous mapping -/
  mmap_next : Nat
  /-- arguments of the `sbrk` calls made so far -/
  sbrk_log : List Nat
  /-- `(address, length)` of the `munmap` calls made so far -/
  munmap_log : List (Nat × Nat)
  /-- `(destination, source, length)` of the `memmove` calls made so far -/
  memmove_log : List (Nat × Nat × Nat)
deriving DecidableEq, Repr

/-- Number of values of `size_t`. -/
def WORD : Nat := 18446744073709551616

/-- The constant `MMAP_THRESHOLD`, `128 * 1024`. -/
def MMAP_THRESHOLD : Nat := 131072

/-- The constant `size_map`. -/
def size_map : Nat := 4096

/-- Addition of two `size_t` values. -/
def wadd (a b : Nat) : Nat := (a + b) % WORD

/-- Multiplication of two `size_t` values. -/
def wmul (a b : Nat) : Nat := (a * b) % WORD

/-- Subtraction of two `size_t` values: wraps around when `a < b`. -/
def wsub (a b : Nat) : Nat := if b ≤ a then a - b else a + WORD - b

/-- The rounding `t + ((8 - (t % 8)) % 8)` applied to every total size. -/
def round8 (t : Nat) : Nat := wadd t ((8 - t % 8) % 8)

/-- The total footprint computed by `os_malloc` and `os_realloc` for a request of
`size` bytes: `size + SIZE_OF_STRUCT`, rounded. -/
def total_size (hs size : Nat) : Nat := round8 (wadd size hs)

/-- Source function `alignment_memory`. -/
def alignment_memory (ptr : Nat) : Nat := ptr + (8 - ptr % 8) % 8

/-- Address chosen by `mmap`: the first page boundary at or above `mmap_next`. -/
def page_up (a : Nat) : Nat := a + (4096 - a % 4096) % 4096

/-- Index of the first node whose header is at address `a`: resolves a header pointer. -/
def block_at : List Block → Nat → Option Nat
  | [], _ => none
  | b :: rest, a =>
    if b.addr = a then some 0 else (block_at rest a).map (· + 1)

/-- Resolves `(block_meta *)ptr - 1`. -/
def header_of (hs : Nat) (l : List Block) (ptr : Nat) : Option Nat :=
  if hs ≤ ptr then block_at l (ptr - hs) else none

/-- Applies `f` to the node at index `i`. -/
def update_at (f : Block → Block) : List Block → Nat → List Block
  | [], _ => []
  | b :: rest, 0 => f b :: rest
  | b :: rest, i + 1 => b :: update_at f rest i

/-- Assignment `memory_block->status = st` on the node at index `i`. -/
def set_status (l : List Block) (i : Nat) (st : Status) : List Block :=
  update_at (fun b => { b with status := st }) l i

/-- Assignment `memory_block->size = sz` on the node at index `i`. -/
def set_size (l : List Block) (i : Nat) (sz : Nat) : List Block :=
  update_at (fun b => { b with size := sz }) l i

/-- Source function `find_block_meta`: index of the first node whose `next` is the
header at address `a`. -/
def find_block_meta : List Block → Nat → Option Nat
  | [], _ => none
  | [_], _ => none
  | _ :: c :: rest, a =>
    if c.addr = a then some 0 else (find_block_meta (c :: rest) a).map (· + 1)

/-- Source function `find_last_block`: the last node (the list is not empty when the
program calls it). -/
def find_last_block (l : List Block) : Option Nat :=
  match l with
  | [] => none
  | _ :: rest => some rest.length

/-- The loop of `find_free_block`: `i` is the index of `current`, `best` holds the
index and size of `best_fit`. -/
def find_free_loop (size : Nat) : List Block → Nat → Option (Nat × Nat) → Option (Nat × Nat)
  | [], _, best => best
  | b :: rest, i, best =>
    if b.status = Status.FREE ∧ b.size ≥ size then
      match best with
      | none => find_free_loop size rest (i + 1) (some (i, b.size))
      | some (j, s) =>
        if b.size < s then find_free_loop size rest (i + 1) (some (i, b.size))
        else find_free_loop size rest (i + 1) (some (j, s))
    else find_free_loop size rest (i + 1) best

/-- Source function `find_free_block`: index of the best fit, if any. -/
def find_free_block (l : List Block) (size : Nat) : Option Nat :=
  (find_free_loop size l 0 none).map Prod.fst

/-- Source function `split_block` on the node at index `i`. -/
def split_block (hs : Nat) : List Block → Nat → Nat → List Block
  | [], _, _ => []
  | b :: rest, 0, size =>
    if wsub b.size size > hs then
      { b with size := size } ::
        { addr := b.addr + size, size := wsub b.size size, status := Status.FREE } :: rest
    else b :: rest
  | b :: rest, i + 1, size => b :: split_block hs rest i size

/-- The loop of `coalesce`: `cur` is `current`, the list argument starts at `next`. -/
def coalesce_loop : Block → List Block → List Block
  | cur, [] => [cur]
  | cur, nxt :: rest =>
    if cur.status = Status.FREE ∧ nxt.status = Status.FREE then
      coalesce_loop { cur with size := cur.size + nxt.size } rest
    else cur :: coalesce_loop nxt rest

/-- Source function `coalesce` (the program calls it on a non-empty list only). -/
def coalesce (l : List Block) : List Block :=
  match l with
  | [] => []
  | b :: rest => coalesce_loop b rest

/-- Source function `coalesce_realloc` applied to the node at index `i` and its
successor. -/
def coalesce_realloc : List Block → Nat → List Block
  | [], _ => []
  | [b], _ => [b]
  | b :: c :: rest, 0 => { b with size := b.size + c.size } :: rest
  | b :: c :: rest, i + 1 => b :: coalesce_realloc (c :: rest) i

/-- The statement `if (head_list != NULL) coalesce();`. -/
def coalesce_if_nonempty (l : List Block) : List Block :=
  if l ≠ [] then coalesce l else l

/-- Address returned for the node at index `i`: `alignment_memory(memory_block + 1)`. -/
def payload (hs : Nat) (l : List Block) (i : Nat) : Option Nat :=
  (l[i]?).map (fun b => alignment_memory (b.addr + hs))

/-- The call `sbrk(n)`. -/
def sbrk (s : State) (n : Nat) : State :=
  { s with brk := s.brk + n, sbrk_log := s.sbrk_log ++ [n] }

/-- The call `memmove(dst, src, n)`: the call is recorded.  The bytes it writes are not
modelled: a copy longer than the payload of the destination node, which in the program
runs into the header that follows, leaves the list of the embedding as it is. -/
def memmove (s : State) (dst src n : Nat) : State :=
  { s with memmove_log := s.memmove_log ++ [(dst, src, n)] }

/-- Source function `init_memory_and_block`; returns the index of the node it returns
a pointer to.  The memory obtained from `sbrk` is fresh, so the `next` field that the
preallocation path leaves unwritten is `NULL`. -/
def init_memory_and_block (hs : Nat) (s : State) (size : Nat) (counter : Nat) :
    Nat × State :=
  let max_counter_size := if counter = 0 then MMAP_THRESHOLD else size_map
  if size < max_counter_size then
    if s.prealloc_heap = false then
      let s1 := sbrk (sbrk s 0) MMAP_THRESHOLD
      let memory_block : Block := { addr := s.brk, size := MMAP_THRESHOLD, status := Status.ALLOC }
      (s.blocks.length,
        { s1 with prealloc_heap := true,
                  blocks := s.blocks ++ split_block hs [memory_block] 0 size })
    else
      let s1 := sbrk s size
      (s.blocks.length,
        { s1 with blocks := s.blocks ++ [{ addr := s.brk, size := size, status := Status.ALLOC }] })
  else
    let a := page_up s.mmap_next
    (s.blocks.length,
      { s with mmap_next := a + size,
               blocks := s.blocks ++ [{ addr := a, size := size, status := Status.MAPPED }] })

/-- The block `// Expand last block` of `os_malloc` and `os_calloc`: when the last node
is FREE, the break is moved by the rounded difference and the node becomes an ALLOC
node of size `total`.  Returns the index of that node. -/
def expand_last (s : State) (total : Nat) : Option (Nat × State) :=
  match find_last_block s.blocks with
  | none => none
  | some i =>
    match s.blocks[i]? with
    | none => none
    | some b =>
      if b.status = Status.FREE then
        let increment := round8 (wsub total b.size)
        let s1 := sbrk s increment
        some (i, { s1 with blocks := set_status (set_size s.blocks i total) i Status.ALLOC })
      else none

/-- Source function `os_malloc`; `none` is `NULL`. -/
def os_malloc (hs : Nat) (s : State) (size : Nat) : Option Nat × State :=
  if size = 0 then (none, s)
  else
    let total := total_size hs size
    let s1 : State := { s with blocks := coalesce_if_nonempty s.blocks }
    match find_free_block s1.blocks total with
    | some i =>
      let l2 := set_status (split_block hs s1.blocks i total) i Status.ALLOC
      (payload hs l2 i, { s1 with blocks := l2 })
    | none =>
      match expand_last s1 total with
      | some (i, s2) => (payload hs s2.blocks i, s2)
      | none =>
        let r := init_memory_and_block hs s1 total 0
        (payload hs r.2.blocks r.1, r.2)

/-- Source function `os_free`.  A pointer whose header is not on the list is outside
the program's contract; the state is then left as it is. -/
def os_free (hs : Nat) (s : State) (ptr : Option Nat) : State :=
  match ptr with
  | none => s
  | some p =>
    match header_of hs s.blocks p with
    | none => s
    | some i =>
      match s.blocks[i]? with
      | none => s
      | some b =>
        if b.status = Status.MAPPED then
          let l :=
            match find_block_meta s.blocks (p - hs) with
            | some j => s.blocks.take (j + 1) ++ s.blocks.drop (i + 1)
            | none => s.blocks.drop (i + 1)
          { s with blocks := l, munmap_log := s.munmap_log ++ [(p - hs, b.size)] }
        else { s with blocks := set_status s.blocks i Status.FREE }

/-- Source function `os_calloc`; the zero fill is not modelled. -/
def os_calloc (hs : Nat) (s : State) (nmemb size : Nat) : Option Nat × State :=
  if nmemb = 0 ∨ size = 0 then (none, s)
  else
    let total := round8 (wadd (wmul nmemb size) hs)
    let s1 : State := { s with blocks := coalesce_if_nonempty s.blocks }
    match (if size < size_map then find_free_block s1.blocks total else none) with
    | some i =>
      let l2 := set_status (split_block hs s1.blocks i total) i Status.ALLOC
      (payload hs l2 i, { s1 with blocks := l2 })
    | none =>
      match (if size < size_map then expand_last s1 total else none) with
      | some (i, s2) => (payload hs s2.blocks i, s2)
      | none =>
        let r := init_memory_and_block hs s1 total 1
        (payload hs r.2.blocks r.1, r.2)

/-- Source function `find_minimum`, on values of type `int`. -/
def find_minimum (num1 num2 : Int) : Int :=
  if num1 < num2 then num1 else num2

/-- Conversion of a `size_t` argument to the `int` parameter of `find_minimum`. -/
def to_int (n : Nat) : Int :=
  if n % 4294967296 < 2147483648 then (n % 4294967296 : Nat)
  else ((n % 4294967296 : Nat) : Int) - 4294967296

/-- Conversion of the `int` result of `find_minimum` to the `size_t` length of
`memmove`. -/
def int_to_size (z : Int) : Nat := (z % (WORD : Int)).toNat

/-- Source function `is_last_block`: `true` is `1`. -/
def is_last_block (l : List Block) (memory_block : Option Nat) : Bool :=
  match memory_block with
  | none => true
  | some i => (l.drop (i + 1)).all (fun b => decide (b.status = Status.MAPPED))

/-- The loop of `find_last_block_free`: `i` is the index of `current`. -/
def find_last_free_loop : List Block → Nat → Option Nat → Option Nat
  | [], _, last => last
  | b :: rest, i, last =>
    if b.status = Status.FREE then find_last_free_loop rest (i + 1) (some i)
    else find_last_free_loop rest (i + 1) last

/-- Source function `find_last_block_free`. -/
def find_last_block_free (l : List Block) : Option Nat :=
  let last := find_last_free_loop l 0 none
  if is_last_block l last = true then last else none

/-- Result of `os_realloc`: a pointer (`none` is `NULL`), or `undef` when the function
returns the value of `new_memory_block` without having assigned it, or is given a
pointer whose header is not on the list. -/
inductive Ret where
  | ptr (p : Option Nat)
  | undef
deriving DecidableEq, Repr

/-- Index and fields of the header `(block_meta *)ptr - 1`. -/
def old_block (hs : Nat) (l : List Block) (ptr : Nat) : Option (Nat × Block) :=
  match header_of hs l ptr with
  | none => none
  | some i => (l[i]?).map (fun b => (i, b))

/-- The sequence used by several branches of `os_realloc`: place the request in the
FREE node at index `i` (`split_block`, status ALLOC), copy `n` bytes from `ptr`, and,
when `release` is set, call `os_free(ptr)`.  The returned pointer is computed from the
new node. -/
def realloc_into_free (hs : Nat) (s : State) (p i total n : Nat) (release : Bool) :
    Ret × State :=
  let l2 := set_status (split_block hs s.blocks i total) i Status.ALLOC
  let r := payload hs l2 i
  let dst := (l2[i]?).map (fun b => b.addr + hs)
  let s2 := memmove { s with blocks := l2 } (dst.getD 0) p n
  (Ret.ptr r, if release then os_free hs s2 (some p) else s2)

/-- The sequence `init_memory_and_block(alignment_size, 0); memmove(..., n); os_free(ptr)`
of `os_realloc`. -/
def realloc_into_new (hs : Nat) (s : State) (p total n : Nat) : Ret × State :=
  let r := init_memory_and_block hs s total 0
  let ret := payload hs r.2.blocks r.1
  let dst := (r.2.blocks[r.1]?).map (fun b => b.addr + hs)
  let s2 := memmove r.2 (dst.getD 0) p n
  (Ret.ptr ret, os_free hs s2 (some p))

/-- The last three alternatives of the grow branch of `os_realloc`: best fit, else
extension of the last FREE node, else a new block; each copies and calls
`os_free(ptr)`. -/
def realloc_relocate (hs : Nat) (s : State) (p size alignment_size : Nat)
    (old : Block) : Ret × State :=
  match find_free_block s.blocks alignment_size with
  | some i =>
    realloc_into_free hs s p i alignment_size
      (int_to_size (find_minimum (to_int old.size) (to_int size))) true
  | none =>
    match (if alignment_size < MMAP_THRESHOLD then find_last_block_free s.blocks
           else none) with
    | some i =>
      let n := ((s.blocks[i]?).map Block.size).getD 0
      let dst := ((s.blocks[i]?).map (fun b => b.addr + hs)).getD 0
      let s1 := sbrk s (wsub alignment_size n)
      let l2 := set_status s.blocks i Status.ALLOC
      let s2 := memmove { s1 with blocks := l2 } dst p old.size
      (Ret.ptr (payload hs l2 i), os_free hs s2 (some p))
    | none =>
      realloc_into_new hs s p alignment_size
        (int_to_size (find_minimum (to_int old.size) (to_int alignment_size)))

/-- The branch of `os_realloc` for `old->size < alignment_size` and
`old->size < MMAP_THRESHOLD`; `io` and `old` are the index and fields of the old
node. -/
def realloc_grow_heap (hs : Nat) (s : State) (p size alignment_size io : Nat)
    (old : Block) : Ret × State :=
  if io + 1 = s.blocks.length ∧ old.status ≠ Status.MAPPED then
    let s1 := sbrk s (wsub alignment_size old.size)
    let l2 := set_size s.blocks io alignment_size
    (Ret.ptr (payload hs l2 io), { s1 with blocks := l2 })
  else
    match s.blocks[io + 1]? with
    | some nxt =>
      if nxt.status = Status.FREE then
        if old.size + nxt.size ≥ alignment_size then
          let l2 := coalesce_realloc s.blocks io
          (Ret.ptr (payload hs l2 io), { s with blocks := l2 })
        else
          match find_free_block s.blocks alignment_size with
          | some i => realloc_into_free hs s p i alignment_size old.size false
          | none => realloc_into_new hs s p alignment_size old.size
      else realloc_relocate hs s p size alignment_size old
    | none => realloc_relocate hs s p size alignment_size old

/-- The `if` / `else if` chain of `os_realloc`, entered after `coalesce`; `io` and
`old` are the index and fields of the old node in the coalesced list. -/
def realloc_dispatch (hs : Nat) (s : State) (p size alignment_size io : Nat)
    (old : Block) : Ret × State :=
  if old.size > alignment_size ∧ old.size > MMAP_THRESHOLD then
    match find_free_block s.blocks alignment_size with
    | some i => realloc_into_free hs s p i alignment_size size true
    | none => realloc_into_new hs s p alignment_size size
  else if (old.size > alignment_size ∧ old.size < MMAP_THRESHOLD)
      ∧ old.status = Status.ALLOC then
    let l2 := set_status (split_block hs s.blocks io alignment_size) io Status.ALLOC
    (Ret.ptr (payload hs l2 io), { s with blocks := l2 })
  else if old.size < alignment_size ∧ old.size > MMAP_THRESHOLD then
    realloc_into_new hs s p alignment_size size
  else if old.size < alignment_size ∧ old.size < MMAP_THRESHOLD then
    realloc_grow_heap hs s p size alignment_size io old
  else if old.size > alignment_size ∧ old.size < MMAP_THRESHOLD
      ∧ old.status = Status.MAPPED then
    match find_free_block s.blocks alignment_size with
    | some i => realloc_into_free hs s p i alignment_size size true
    | none => realloc_into_new hs s p alignment_size size
  else (Ret.undef, s)

/-- Source function `os_realloc`. -/
def os_realloc (hs : Nat) (s : State) (ptr : Option Nat) (size : Nat) : Ret × State :=
  if size = 0 then (Ret.ptr none, os_free hs s ptr)
  else
    match ptr with
    | none =>
      let r := os_malloc hs s size
      (Ret.ptr r.1, r.2)
    | some p =>
      let alignment_size := total_size hs size
      match old_block hs s.blocks p with
      | none => (Ret.undef, s)
      | some (_, old0) =>
        if old0.status = Status.FREE then (Ret.ptr none, s)
        else if old0.size = alignment_size then (Ret.ptr (some p), s)
        else
          let s1 : State := { s with blocks := coalesce_if_nonempty s.blocks }
          match old_block hs s1.blocks p with
          | none => (Ret.undef, s1)
          | some (io, old) => realloc_dispatch hs s1 p size alignment_size io old

/-- The state before the first call: empty list, flag clear, break at `brk0`. -/
def init_state (brk0 map0 : Nat) : State :=
  { blocks := [], prealloc_heap := false, brk := brk0, mmap_next := map0,
    sbrk_log := [], munmap_log := [], memmove_log := [] }

/-! ## Reachable states -/

/-- A pointer a caller may pass: `NULL`, or the payload pointer of a node of the list
that is not FREE. -/
def valid_ptr (hs : Nat) (s : State) (ptr : Option Nat) : Prop :=
  ptr = none ∨ ∃ p i b, ptr = some p ∧ old_block hs s.blocks p = some (i, b) ∧
    b.status ≠ Status.FREE

/-- Rounding up to a multiple of 8 without wrap-around. -/
def up8 (t : Nat) : Nat := t + (8 - t % 8) % 8

/-- States reachable from the initial state by calls of the four public functions on
valid pointers, with `size_t` arguments.  With `exact = true` only requests whose total
size is computed without wrap-around are admitted. -/
inductive Reach (hs brk0 map0 : Nat) (exact : Bool) : State → Prop where
  | init : Reach hs brk0 map0 exact (init_state brk0 map0)
  | malloc (s : State) (size : Nat) :
      Reach hs brk0 map0 exact s → size < WORD →
      (exact = true → up8 (size + hs) < WORD) →
      Reach hs brk0 map0 exact (os_malloc hs s size).2
  | calloc (s : State) (nmemb size : Nat) :
      Reach hs brk0 map0 exact s → nmemb < WORD → size < WORD →
      (exact = true → up8 (nmemb * size + hs) < WORD) →
      Reach hs brk0 map0 exact (os_calloc hs s nmemb size).2
  | realloc (s : State) (ptr : Option Nat) (size : Nat) :
      Reach hs brk0 map0 exact s → valid_ptr hs s ptr → size < WORD →
      (exact = true → up8 (size + hs) < WORD) →
      Reach hs brk0 map0 exact (os_realloc hs s ptr size).2
  | free (s : State) (ptr : Option Nat) :
      Reach hs brk0 map0 exact s → valid_ptr hs s ptr →
      Reach hs brk0 map0 exact (os_free hs s ptr)

/-- No two consecutive nodes of the list are both FREE. -/
def no_adjacent_free (l : List Block) : Prop :=
  List.Chain' (fun a b => ¬ (a.status = Status.FREE ∧ b.status = Status.FREE)) l

/-- Sum of the `size` fields of a list. -/
def sum_sizes (l : List Block) : Nat := (l.map Block.size).sum

/-- The nodes that `split_block` leaves in place of a node `b` split at `size`. -/
def split_piece (hs : Nat) (b : Block) (size : Nat) : List Block :=
  if wsub b.size size > hs then
    [{ b with size := size },
     { addr := b.addr + size, size := wsub b.size size, status := Status.FREE }]
  else [b]

/-- The common tail of `os_malloc` and `os_calloc`, given the outcome `ff` of the best-fit
search and the outcome `ex` of the extension of the last node: place in the FREE node
found, else use the extended last node, else call `init_memory_and_block`. -/
def place (hs : Nat) (s1 : State) (total : Nat) (ff : Option Nat)
    (ex : Option (Nat × State)) (counter : Nat) : Option Nat × State :=
  match ff with
  | some i =>
    let l2 := set_status (split_block hs s1.blocks i total) i Status.ALLOC
    (payload hs l2 i, { s1 with blocks := l2 })
  | none =>
    match ex with
    | some (i, s2) => (payload hs s2.blocks i, s2)
    | none =>
      let r := init_memory_and_block hs s1 total counter
      (payload hs r.2.blocks r.1, r.2)

/-- A node that is MAPPED has size at least `size_map`, the threshold of `os_calloc`. -/
def mapped_ok (b : Block) : Prop :=
  b.status = Status.MAPPED → size_map ≤ b.size

/-- Sum of the `size` fields of the nodes that are not MAPPED. -/
def heap_bytes (l : List Block) : Nat :=
  sum_sizes (l.filter (fun b => decide (b.status ≠ Status.MAPPED)))

/-! ## Arithmetic of the rounding -/

theorem round8_eq_up8 (t : Nat) (h : up8 t < WORD) : round8 t = up8 t := by
  unfold round8 wadd up8 at *
  exact Nat.mod_eq_of_lt h

theorem up8_mod (t : Nat) : up8 t % 8 = 0 := by
  unfold up8; omega

theorem up8_ge (t : Nat) : t ≤ up8 t := by
  unfold up8; omega

theorem up8_lt (t : Nat) : up8 t < t + 8 := by
  unfold up8; omega

theorem round8_mod (t : Nat) : round8 t % 8 = 0 := by
  unfold round8 wadd WORD; omega

theorem total_size_exact (hs size : Nat) (h : up8 (size + hs) < WORD) :
    total_size hs size = up8 (size + hs) := by
  have h1 : size + hs < WORD := lt_of_le_of_lt (up8_ge _) h
  unfold total_size wadd
  rw [Nat.mod_eq_of_lt h1]
  exact round8_eq_up8 _ h

theorem alignment_memory_aligned (a : Nat) (h : a % 8 = 0) : alignment_memory a = a := by
  unfold alignment_memory; omega

/-! ## Lemmas on the list operations -/

theorem update_at_length (f : Block → Block) (l : List Block) (i : Nat) :
    (update_at f l i).length = l.length := by
  induction l generalizing i with
  | nil => rfl
  | cons b rest ih => cases i <;> simp [update_at, ih]

theorem update_at_get_self (f : Block → Block) (l : List Block) (i : Nat) (b : Block)
    (h : l[i]? = some b) : (update_at f l i)[i]? = some (f b) := by
  induction l generalizing i with
  | nil => simp at h
  | cons c rest ih =>
    cases i with
    | zero => simp at h; simp [update_at, h]
    | succ i => simp at h; simpa [update_at] using ih i h

theorem update_at_get_other (f : Block → Block) (l : List Block) (i j : Nat)
    (h : j ≠ i) : (update_at f l i)[j]? = l[j]? := by
  induction l generalizing i j with
  | nil => simp [update_at]
  | cons c rest ih =>
    cases i with
    | zero =>
      cases j with
      | zero => exact absurd rfl h
      | succ j => simp [update_at]
    | succ i =>
      cases j with
      | zero => simp [update_at]
      | succ j =>
        have : j ≠ i := fun e => h (by rw [e])
        simpa [update_at] using ih i j this

theorem update_at_split (f : Block → Block) (pre post : List Block) (b : Block) :
    update_at f (pre ++ b :: post) pre.length = pre ++ f b :: post := by
  induction pre with
  | nil => rfl
  | cons c rest ih => simp [update_at, ih]

theorem update_at_mem (f : Block → Block) (P : Block → Prop)
    (hf : ∀ b, P b → P (f b)) (l : List Block) (i : Nat)
    (h : ∀ b ∈ l, P b) : ∀ b ∈ update_at f l i, P b := by
  induction l generalizing i with
  | nil => simp [update_at]
  | cons c rest ih =>
    have hc : P c := h c (List.mem_cons_self _ _)
    have hr : ∀ b ∈ rest, P b := fun b hb => h b (List.mem_cons_of_mem _ hb)
    cases i with
    | zero =>
      intro b hb
      simp only [update_at, List.mem_cons] at hb
      rcases hb with rfl | hb
      · exact hf c hc
      · exact hr b hb
    | succ i =>
      intro b hb
      simp only [update_at, List.mem_cons] at hb
      rcases hb with rfl | hb
      · exact hc
      · exact ih i hr b hb

theorem update_at_map_size (f : Block → Block) (hf : ∀ b, (f b).size = b.size)
    (l : List Block) (i : Nat) :
    (update_at f l i).map Block.size = l.map Block.size := by
  induction l generalizing i with
  | nil => rfl
  | cons c rest ih => cases i <;> simp [update_at, ih, hf]

theorem update_at_map_addr (f : Block → Block) (hf : ∀ b, (f b).addr = b.addr)
    (l : List Block) (i : Nat) :
    (update_at f l i).map Block.addr = l.map Block.addr := by
  induction l generalizing i with
  | nil => rfl
  | cons c rest ih => cases i <;> simp [update_at, ih, hf]

theorem block_at_split (pre post : List Block) (b : Block)
    (hu : ∀ x ∈ pre, x.addr ≠ b.addr) :
    block_at (pre ++ b :: post) b.addr = some pre.length := by
  induction pre with
  | nil => simp [block_at]
  | cons c rest ih =>
    have hc : c.addr ≠ b.addr := hu c (List.mem_cons_self _ _)
    have hr : ∀ x ∈ rest, x.addr ≠ b.addr := fun x hx => hu x (List.mem_cons_of_mem _ hx)
    simp [block_at, hc, ih hr]

theorem block_at_some (l : List Block) (a i : Nat) (h : block_at l a = some i) :
    ∃ b, l[i]? = some b ∧ b.addr = a ∧ ∀ j, j < i → ∀ c, l[j]? = some c → c.addr ≠ a := by
  induction l generalizing i with
  | nil => simp [block_at] at h
  | cons c rest ih =>
    unfold block_at at h
    by_cases hc : c.addr = a
    · simp [hc] at h
      subst h
      exact ⟨c, by simp, hc, fun j hj => absurd hj (Nat.not_lt_zero _)⟩
    · simp [hc] at h
      obtain ⟨k, hk, rfl⟩ := h
      obtain ⟨b, hb, hba, hmin⟩ := ih k hk
      refine ⟨b, by simpa using hb, hba, ?_⟩
      intro j hj d hd
      cases j with
      | zero => simp at hd; subst hd; exact hc
      | succ j => simp at hd; exact hmin j (by omega) d hd

theorem get_split (l : List Block) (i : Nat) (b : Block) (h : l[i]? = some b) :
    ∃ pre post, l = pre ++ b :: post ∧ pre.length = i := by
  induction l generalizing i with
  | nil => simp at h
  | cons c rest ih =>
    cases i with
    | zero => simp at h; subst h; exact ⟨[], rest, rfl, rfl⟩
    | succ i =>
      simp at h
      obtain ⟨pre, post, e, hl⟩ := ih i h
      exact ⟨c :: pre, post, by simp [e], by simp [hl]⟩

theorem get_at_split (pre post : List Block) (b : Block) :
    (pre ++ b :: post)[pre.length]? = some b := by
  induction pre with
  | nil => simp
  | cons c rest ih => simpa using ih

theorem find_block_meta_none (c : Block) (rest : List Block) (a : Nat)
    (h : ∀ x ∈ rest, x.addr ≠ a) : find_block_meta (c :: rest) a = none := by
  induction rest generalizing c with
  | nil => rfl
  | cons d rest ih =>
    have hd : d.addr ≠ a := h d (List.mem_cons_self _ _)
    have hr : ∀ x ∈ rest, x.addr ≠ a := fun x hx => h x (List.mem_cons_of_mem _ hx)
    simp [find_block_meta, hd, ih d hr]

theorem find_block_meta_split (c : Block) (pre post : List Block) (b : Block)
    (h : ∀ x ∈ pre, x.addr ≠ b.addr) :
    find_block_meta (c :: (pre ++ b :: post)) b.addr = some pre.length := by
  induction pre generalizing c with
  | nil => simp [find_block_meta]
  | cons d rest ih =>
    have hd : d.addr ≠ b.addr := h d (List.mem_cons_self _ _)
    have hr : ∀ x ∈ rest, x.addr ≠ b.addr := fun x hx => h x (List.mem_cons_of_mem _ hx)
    have := ih d hr
    simp only [List.cons_append] at this ⊢
    simp [find_block_meta, hd, this]

theorem unlink_split (pre post : List Block) (b : Block)
    (h : ∀ x ∈ pre ++ post, x.addr ≠ b.addr) :
    (match find_block_meta (pre ++ b :: post) b.addr with
      | some j => (pre ++ b :: post).take (j + 1) ++ (pre ++ b :: post).drop (pre.length + 1)
      | none => (pre ++ b :: post).drop (pre.length + 1)) = pre ++ post := by
  have hpre : ∀ x ∈ pre, x.addr ≠ b.addr := fun x hx => h x (List.mem_append_left _ hx)
  have hpost : ∀ x ∈ post, x.addr ≠ b.addr := fun x hx => h x (List.mem_append_right _ hx)
  have hdrop : (pre ++ b :: post).drop (pre.length + 1) = post := by
    rw [List.drop_append_eq_append_drop]
    simp
  cases pre with
  | nil =>
    simp only [List.nil_append]
    rw [find_block_meta_none b post b.addr hpost]
    simp
  | cons c rest =>
    have hr : ∀ x ∈ rest, x.addr ≠ b.addr := fun x hx => hpre x (List.mem_cons_of_mem _ hx)
    rw [hdrop]
    simp only [List.cons_append]
    rw [find_block_meta_split c rest post b hr]
    simp [List.take_append_eq_append_take]

theorem os_free_unlinks (hs : Nat) (s : State) (pre post : List Block) (b : Block)
    (hl : s.blocks = pre ++ b :: post) (hm : b.status = Status.MAPPED)
    (hu : ∀ x ∈ pre ++ post, x.addr ≠ b.addr) :
    os_free hs s (some (b.addr + hs)) =
      { s with blocks := pre ++ post,
               munmap_log := s.munmap_log ++ [(b.addr, b.size)] } := by
  have hpre : ∀ x ∈ pre, x.addr ≠ b.addr := fun x hx => hu x (List.mem_append_left _ hx)
  have hh : header_of hs (pre ++ b :: post) (b.addr + hs) = some pre.length := by
    unfold header_of
    simp [block_at_split pre post b hpre]
  have hg : (pre ++ b :: post)[pre.length]? = some b := get_at_split pre post b
  have hun := unlink_split pre post b hu
  unfold os_free
  simp only [hl, hh, hg, hm, if_true, Nat.add_sub_cancel]
  rw [hun]

theorem page_up_mod8 (a : Nat) : page_up a % 8 = 0 := by
  unfold page_up; omega

theorem os_malloc_empty_mapped (hs brk0 map0 size : Nat) (h0 : size ≠ 0)
    (ht : MMAP_THRESHOLD ≤ total_size hs size) :
    os_malloc hs (init_state brk0 map0) size =
      (some (alignment_memory (page_up map0 + hs)),
        { init_state brk0 map0 with
            mmap_next := page_up map0 + total_size hs size,
            blocks := [{ addr := page_up map0, size := total_size hs size,
                         status := Status.MAPPED }] }) := by
  have ht2 : ¬ total_size hs size < MMAP_THRESHOLD := Nat.not_lt.mpr ht
  simp [os_malloc, h0, init_state, coalesce_if_nonempty, find_free_block, find_free_loop,
    expand_last, find_last_block, init_memory_and_block, ht2, payload]

/-! ## Lemmas on `coalesce` -/

theorem coalesce_loop_head (cur : Block) (l : List Block) :
    ∃ sz tl, coalesce_loop cur l = { cur with size := sz } :: tl := by
  induction l generalizing cur with
  | nil => exact ⟨cur.size, [], rfl⟩
  | cons nxt rest ih =>
    unfold coalesce_loop
    by_cases h : cur.status = Status.FREE ∧ nxt.status = Status.FREE
    · rw [if_pos h]
      obtain ⟨sz, tl, e⟩ := ih { cur with size := cur.size + nxt.size }
      exact ⟨sz, tl, e⟩
    · rw [if_neg h]
      exact ⟨cur.size, _, rfl⟩

theorem coalesce_loop_no_adjacent_free (cur : Block) (l : List Block) :
    no_adjacent_free (coalesce_loop cur l) := by
  induction l generalizing cur with
  | nil => simp [coalesce_loop, no_adjacent_free]
  | cons nxt rest ih =>
    unfold coalesce_loop
    by_cases h : cur.status = Status.FREE ∧ nxt.status = Status.FREE
    · rw [if_pos h]; exact ih _
    · rw [if_neg h]
      obtain ⟨sz, tl, e⟩ := coalesce_loop_head nxt rest
      have hc := ih nxt
      rw [e] at hc ⊢
      exact List.Chain'.cons h hc

theorem coalesce_no_adjacent_free (l : List Block) : no_adjacent_free (coalesce l) := by
  cases l with
  | nil => simp [coalesce, no_adjacent_free]
  | cons b rest => exact coalesce_loop_no_adjacent_free b rest

theorem coalesce_if_nonempty_eq (l : List Block) : coalesce_if_nonempty l = coalesce l := by
  unfold coalesce_if_nonempty
  cases l <;> simp [coalesce]

theorem coalesce_loop_sum (cur : Block) (l : List Block) :
    sum_sizes (coalesce_loop cur l) = cur.size + sum_sizes l := by
  induction l generalizing cur with
  | nil => simp [coalesce_loop, sum_sizes]
  | cons nxt rest ih =>
    unfold coalesce_loop
    by_cases h : cur.status = Status.FREE ∧ nxt.status = Status.FREE
    · rw [if_pos h, ih]
      simp [sum_sizes]; omega
    · rw [if_neg h]
      have := ih nxt
      simp [sum_sizes] at this ⊢
      omega

theorem coalesce_sum (l : List Block) : sum_sizes (coalesce l) = sum_sizes l := by
  cases l with
  | nil => rfl
  | cons b rest => simpa [coalesce, sum_sizes] using coalesce_loop_sum b rest

/-- Every node of the coalesced list satisfies a property that holds of every node
before and is kept when a FREE node absorbs its successor. -/
theorem coalesce_loop_mem (P : Block → Prop)
    (hP : ∀ a b : Block, P a → P b → P { a with size := a.size + b.size })
    (cur : Block) (l : List Block) (hc : P cur) (hl : ∀ b ∈ l, P b) :
    ∀ b ∈ coalesce_loop cur l, P b := by
  induction l generalizing cur with
  | nil => intro b hb; simp [coalesce_loop] at hb; subst hb; exact hc
  | cons nxt rest ih =>
    have hn : P nxt := hl nxt (List.mem_cons_self _ _)
    have hr : ∀ b ∈ rest, P b := fun b hb => hl b (List.mem_cons_of_mem _ hb)
    unfold coalesce_loop
    by_cases h : cur.status = Status.FREE ∧ nxt.status = Status.FREE
    · rw [if_pos h]; exact ih _ (hP cur nxt hc hn) hr
    · rw [if_neg h]
      intro b hb
      rcases List.mem_cons.mp hb with rfl | hb
      · exact hc
      · exact ih nxt hn hr b hb

theorem coalesce_mem (P : Block → Prop)
    (hP : ∀ a b : Block, P a → P b → P { a with size := a.size + b.size })
    (l : List Block) (hl : ∀ b ∈ l, P b) : ∀ b ∈ coalesce l, P b := by
  cases l with
  | nil => simp [coalesce]
  | cons c rest =>
    exact coalesce_loop_mem P hP c rest (hl c (List.mem_cons_self _ _))
      (fun b hb => hl b (List.mem_cons_of_mem _ hb))

theorem coalesce_loop_barrier (b : Block) (post : List Block)
    (hb : b.status ≠ Status.FREE) : coalesce_loop b post = b :: coalesce post := by
  cases post with
  | nil => rfl
  | cons c rest =>
    unfold coalesce_loop
    rw [if_neg (fun h => hb h.1)]
    rfl

theorem coalesce_loop_split (cur : Block) (pre post : List Block) (b : Block)
    (hb : b.status ≠ Status.FREE) :
    coalesce_loop cur (pre ++ b :: post) = coalesce_loop cur pre ++ b :: coalesce post := by
  induction pre generalizing cur with
  | nil =>
    simp only [List.nil_append]
    unfold coalesce_loop
    rw [if_neg (fun h => hb h.2), coalesce_loop_barrier b post hb]
    rfl
  | cons c rest ih =>
    simp only [List.cons_append]
    unfold coalesce_loop
    by_cases h : cur.status = Status.FREE ∧ c.status = Status.FREE
    · rw [if_pos h, if_pos h]; exact ih _
    · rw [if_neg h, if_neg h, ih c]; rfl

/-- A node that is not FREE is a barrier for `coalesce`: both sides are merged on their
own. -/
theorem coalesce_split (pre post : List Block) (b : Block) (hb : b.status ≠ Status.FREE) :
    coalesce (pre ++ b :: post) = coalesce pre ++ b :: coalesce post := by
  cases pre with
  | nil => simpa [coalesce] using coalesce_loop_barrier b post hb
  | cons c rest => simpa [coalesce] using coalesce_loop_split c rest post b hb

/-! ## Lemmas on `split_block` and `find_free_block` -/

theorem split_block_split (hs : Nat) (pre post : List Block) (b : Block) (t : Nat) :
    split_block hs (pre ++ b :: post) pre.length t = pre ++ split_piece hs b t ++ post := by
  induction pre with
  | nil =>
    simp only [List.nil_append, List.length_nil, split_block, split_piece]
    by_cases h : wsub b.size t > hs
    · rw [if_pos h, if_pos h]; rfl
    · rw [if_neg h, if_neg h]; rfl
  | cons c rest ih =>
    have e : split_block hs (c :: (rest ++ b :: post)) (rest.length + 1) t =
        c :: split_block hs (rest ++ b :: post) rest.length t := rfl
    simp only [List.cons_append, List.length_cons]
    rw [e, ih]

theorem update_at_split_append (f : Block → Block) (pre tl : List Block) (b : Block) :
    update_at f (pre ++ b :: tl) pre.length = pre ++ f b :: tl :=
  update_at_split f pre tl b

theorem split_piece_mem (hs : Nat) (P : Block → Prop) (b : Block) (t : Nat)
    (h1 : wsub b.size t > hs → P { b with size := t })
    (h2 : wsub b.size t > hs →
      P { addr := b.addr + t, size := wsub b.size t, status := Status.FREE })
    (h3 : P b) : ∀ x ∈ split_piece hs b t, P x := by
  unfold split_piece
  by_cases h : wsub b.size t > hs
  · rw [if_pos h]
    intro x hx
    simp only [List.mem_cons, List.mem_singleton, List.not_mem_nil, or_false] at hx
    rcases hx with rfl | rfl
    · exact h1 h
    · exact h2 h
  · rw [if_neg h]
    intro x hx
    simp only [List.mem_singleton] at hx
    subst hx; exact h3

theorem sum_sizes_cons (b : Block) (l : List Block) :
    sum_sizes (b :: l) = b.size + sum_sizes l := by
  simp [sum_sizes]

theorem find_free_loop_some (t : Nat) (l : List Block) (i : Nat) (best : Option (Nat × Nat))
    (k sz : Nat) (h : find_free_loop t l i best = some (k, sz)) :
    best = some (k, sz) ∨
      (i ≤ k ∧ ∃ b, l[k - i]? = some b ∧ b.status = Status.FREE ∧ t ≤ b.size ∧ b.size = sz) := by
  induction l generalizing i best with
  | nil => left; simpa [find_free_loop] using h
  | cons c rest ih =>
    have lift : ∀ best2, find_free_loop t rest (i + 1) best2 = some (k, sz) →
        best2 = some (k, sz) ∨
        (i ≤ k ∧ ∃ b, (c :: rest)[k - i]? = some b ∧ b.status = Status.FREE ∧ t ≤ b.size ∧
          b.size = sz) := by
      intro best2 h2
      rcases ih (i + 1) best2 h2 with e | ⟨hik, b, hb, hf, ht, hs⟩
      · exact Or.inl e
      · right
        refine ⟨by omega, b, ?_, hf, ht, hs⟩
        have : k - i = (k - (i + 1)) + 1 := by omega
        rw [this]; simpa using hb
    have here : ∀ (hc : c.status = Status.FREE ∧ c.size ≥ t), some (i, c.size) = some (k, sz) →
        (i ≤ k ∧ ∃ b, (c :: rest)[k - i]? = some b ∧ b.status = Status.FREE ∧ t ≤ b.size ∧
          b.size = sz) := by
      intro hc e
      simp only [Option.some.injEq, Prod.mk.injEq] at e
      obtain ⟨rfl, rfl⟩ := e
      exact ⟨le_refl _, c, by simp, hc.1, hc.2, rfl⟩
    unfold find_free_loop at h
    by_cases hc : c.status = Status.FREE ∧ c.size ≥ t
    · rw [if_pos hc] at h
      cases best with
      | none =>
        simp only at h
        rcases lift _ h with e | r
        · exact Or.inr (here hc e)
        · exact Or.inr r
      | some js =>
        obtain ⟨j, s⟩ := js
        simp only at h
        by_cases hlt : c.size < s
        · rw [if_pos hlt] at h
          rcases lift _ h with e | r
          · exact Or.inr (here hc e)
          · exact Or.inr r
        · rw [if_neg hlt] at h
          exact lift _ h
    · rw [if_neg hc] at h
      exact lift _ h

theorem find_free_block_some (l : List Block) (t k : Nat)
    (h : find_free_block l t = some k) :
    ∃ b, l[k]? = some b ∧ b.status = Status.FREE ∧ t ≤ b.size := by
  unfold find_free_block at h
  cases hr : find_free_loop t l 0 none with
  | none => rw [hr] at h; simp at h
  | some ks =>
    obtain ⟨k2, sz⟩ := ks
    rw [hr] at h
    simp only [Option.map_some', Option.some.injEq] at h
    subst h
    rcases find_free_loop_some t l 0 none k2 sz hr with e | ⟨_, b, hb, hf, ht, _⟩
    · simp at e
    · exact ⟨b, by simpa using hb, hf, ht⟩

theorem find_free_loop_skip (t : Nat) (l : List Block) (i : Nat) (best : Option (Nat × Nat))
    (h : ∀ b ∈ l, b.status = Status.FREE → b.size < t) :
    find_free_loop t l i best = best := by
  induction l generalizing i best with
  | nil => rfl
  | cons c rest ih =>
    have hc : ¬ (c.status = Status.FREE ∧ c.size ≥ t) := by
      intro hh
      have := h c (List.mem_cons_self _ _) hh.1
      omega
    unfold find_free_loop
    rw [if_neg hc]
    exact ih (i + 1) best (fun b hb => h b (List.mem_cons_of_mem _ hb))

theorem find_free_block_none_of (l : List Block) (t : Nat)
    (h : ∀ b ∈ l, b.status = Status.FREE → b.size < t) : find_free_block l t = none := by
  unfold find_free_block
  rw [find_free_loop_skip t l 0 none h]; rfl

theorem find_free_loop_keeps_some (t : Nat) (l : List Block) (i : Nat)
    (best : Option (Nat × Nat)) (h : best ≠ none) : find_free_loop t l i best ≠ none := by
  induction l generalizing i best with
  | nil => simpa [find_free_loop] using h
  | cons c rest ih =>
    unfold find_free_loop
    cases best with
    | none => exact absurd rfl h
    | some js =>
      obtain ⟨j, s⟩ := js
      by_cases hc : c.status = Status.FREE ∧ c.size ≥ t
      · rw [if_pos hc]
        simp only
        by_cases hlt : c.size < s
        · rw [if_pos hlt]; exact ih _ _ (by simp)
        · rw [if_neg hlt]; exact ih _ _ (by simp)
      · rw [if_neg hc]; exact ih _ _ (by simp)

theorem find_free_loop_none (t : Nat) (l : List Block) (i : Nat)
    (h : find_free_loop t l i none = none) :
    ∀ b ∈ l, b.status = Status.FREE → b.size < t := by
  induction l generalizing i with
  | nil => simp
  | cons c rest ih =>
    unfold find_free_loop at h
    by_cases hc : c.status = Status.FREE ∧ c.size ≥ t
    · rw [if_pos hc] at h
      simp only at h
      exact absurd h (find_free_loop_keeps_some t rest (i + 1) _ (by simp))
    · rw [if_neg hc] at h
      intro b hb hf
      rcases List.mem_cons.mp hb with rfl | hb
      · by_contra hge
        exact hc ⟨hf, by omega⟩
      · exact ih (i + 1) h b hb hf

theorem find_free_block_none (l : List Block) (t : Nat) (h : find_free_block l t = none) :
    ∀ b ∈ l, b.status = Status.FREE → b.size < t := by
  unfold find_free_block at h
  cases hr : find_free_loop t l 0 none with
  | none => exact find_free_loop_none t l 0 hr
  | some ks => rw [hr] at h; simp at h

/-! ## Lemmas on `os_realloc` -/

/-- Placement in the FREE node at index `i`: `split_block` followed by the status
assignment. -/
theorem best_fit_shape (hs : Nat) (l : List Block) (i t : Nat) (b : Block)
    (hb : l[i]? = some b) :
    ∃ pre post sz tl, l = pre ++ b :: post ∧ pre.length = i ∧
      set_status (split_block hs l i t) i Status.ALLOC =
        pre ++ ({ addr := b.addr, size := sz, status := Status.ALLOC } :: tl) ++ post ∧
      ((¬ wsub b.size t > hs ∧ sz = b.size ∧ tl = []) ∨
       (wsub b.size t > hs ∧ sz = t ∧
         tl = [{ addr := b.addr + t, size := wsub b.size t, status := Status.FREE }])) := by
  obtain ⟨pre, post, e, hlen⟩ := get_split l i b hb
  subst e; subst hlen
  by_cases h : wsub b.size t > hs
  · refine ⟨pre, post, t, _, rfl, rfl, ?_, Or.inr ⟨h, rfl, rfl⟩⟩
    rw [split_block_split]
    unfold split_piece set_status
    rw [if_pos h]
    simp only [List.append_assoc, List.cons_append, List.nil_append]
    rw [update_at_split]
  · refine ⟨pre, post, b.size, [], rfl, rfl, ?_, Or.inl ⟨h, rfl, rfl⟩⟩
    rw [split_block_split]
    unfold split_piece set_status
    rw [if_neg h]
    simp only [List.append_assoc, List.cons_append, List.nil_append]
    rw [update_at_split]

theorem last_split (c : Block) (rest : List Block) :
    ∃ pre b, c :: rest = pre ++ [b] ∧ pre.length = rest.length := by
  induction rest generalizing c with
  | nil => exact ⟨[], c, rfl, rfl⟩
  | cons d rest ih =>
    obtain ⟨pre, b, e, hl⟩ := ih d
    exact ⟨c :: pre, b, by rw [e]; rfl, by simp [hl]⟩

/-- Extension of the last node: either nothing happens (empty list or last node not
FREE), or the last node is FREE and becomes an ALLOC node of size `total`, with one
`sbrk` call. -/
theorem expand_last_shape (s : State) (total : Nat) :
    (expand_last s total = none ∧
      (s.blocks = [] ∨ ∃ pre b, s.blocks = pre ++ [b] ∧ b.status ≠ Status.FREE)) ∨
    (∃ pre b, s.blocks = pre ++ [b] ∧ b.status = Status.FREE ∧
      expand_last s total = some (pre.length,
        { sbrk s (round8 (wsub total b.size)) with
            blocks := pre ++ [{ addr := b.addr, size := total, status := Status.ALLOC }] })) := by
  cases hl : s.blocks with
  | nil => left; simp [expand_last, find_last_block, hl]
  | cons c rest =>
    obtain ⟨pre, b, e, hlen⟩ := last_split c rest
    have hfl : find_last_block s.blocks = some pre.length := by
      rw [hl]; simp [find_last_block, hlen]
    have hbl : s.blocks = pre ++ [b] := hl.trans e
    have hg : s.blocks[pre.length]? = some b := by
      rw [hbl]; exact get_at_split pre [] b
    by_cases hf : b.status = Status.FREE
    · right
      refine ⟨pre, b, e, hf, ?_⟩
      unfold expand_last
      simp only [hfl, hg, hf, if_true]
      unfold set_status set_size
      rw [hbl, update_at_split, update_at_split]
    · left
      refine ⟨?_, Or.inr ⟨pre, b, e, hf⟩⟩
      unfold expand_last
      simp only [hfl, hg, hf, if_false]

/-- The list after `init_memory_and_block`: the old list followed by the new node, or by
the two nodes of the split preallocated chunk. -/
theorem init_memory_and_block_shape (hs : Nat) (s : State) (size counter : Nat) :
    (init_memory_and_block hs s size counter).1 = s.blocks.length ∧
    ∃ nb tl, (init_memory_and_block hs s size counter).2.blocks = s.blocks ++ nb :: tl ∧
      (nb.status = Status.ALLOC ∨ nb.status = Status.MAPPED) ∧
      ((nb.size = size ∧ tl = []) ∨
       (size < MMAP_THRESHOLD ∧ nb.size = MMAP_THRESHOLD ∧ nb.status = Status.ALLOC ∧ tl = [] ∧
          ¬ wsub MMAP_THRESHOLD size > hs) ∨
       (size < MMAP_THRESHOLD ∧ nb.size = size ∧ nb.status = Status.ALLOC ∧
          wsub MMAP_THRESHOLD size > hs ∧
          tl = [{ addr := nb.addr + size, size := wsub MMAP_THRESHOLD size,
                  status := Status.FREE }])) := by
  constructor
  · unfold init_memory_and_block
    dsimp only
    split_ifs <;> rfl
  unfold init_memory_and_block
  by_cases h1 : size < (if counter = 0 then MMAP_THRESHOLD else size_map)
  · have hT : size < MMAP_THRESHOLD := by
      by_cases hc : counter = 0
      · simpa [hc] using h1
      · simp only [if_neg hc] at h1
        unfold size_map at h1; unfold MMAP_THRESHOLD; omega
    simp only [if_pos h1]
    by_cases h2 : s.prealloc_heap = false
    · simp only [if_pos h2]
      by_cases h3 : wsub MMAP_THRESHOLD size > hs
      · refine ⟨{ addr := s.brk, size := size, status := Status.ALLOC }, _, ?_, Or.inl rfl,
          Or.inr (Or.inr ⟨hT, rfl, rfl, h3, rfl⟩)⟩
        simp [split_block, h3]
      · refine ⟨{ addr := s.brk, size := MMAP_THRESHOLD, status := Status.ALLOC }, [], ?_,
          Or.inl rfl, Or.inr (Or.inl ⟨hT, rfl, rfl, rfl, h3⟩)⟩
        simp [split_block, h3]
    · simp only [if_neg h2]
      exact ⟨_, [], rfl, Or.inl rfl, Or.inl ⟨rfl, rfl⟩⟩
  · simp only [if_neg h1]
    exact ⟨_, [], rfl, Or.inr rfl, Or.inl ⟨rfl, rfl⟩⟩

/-! ## `os_malloc` and `os_calloc` through their common tail -/

theorem os_malloc_eq_place (hs : Nat) (s : State) (size : Nat) (h : size ≠ 0) :
    os_malloc hs s size =
      place hs { s with blocks := coalesce_if_nonempty s.blocks } (total_size hs size)
        (find_free_block (coalesce_if_nonempty s.blocks) (total_size hs size))
        (expand_last { s with blocks := coalesce_if_nonempty s.blocks } (total_size hs size))
        0 := by
  unfold os_malloc place
  rw [if_neg h]

theorem os_calloc_eq_place (hs : Nat) (s : State) (nmemb size : Nat)
    (h : ¬ (nmemb = 0 ∨ size = 0)) :
    os_calloc hs s nmemb size =
      place hs { s with blocks := coalesce_if_nonempty s.blocks }
        (round8 (wadd (wmul nmemb size) hs))
        (if size < size_map then
          find_free_block (coalesce_if_nonempty s.blocks) (round8 (wadd (wmul nmemb size) hs))
         else none)
        (if size < size_map then
          expand_last { s with blocks := coalesce_if_nonempty s.blocks }
            (round8 (wadd (wmul nmemb size) hs))
         else none)
        1 := by
  unfold os_calloc place
  rw [if_neg h]

theorem payload_of_get (hs : Nat) (l : List Block) (i : Nat) (b : Block)
    (h : l[i]? = some b) : payload hs l i = some (alignment_memory (b.addr + hs)) := by
  unfold payload; rw [h]; rfl

/-- What `place` returns: the payload pointer of a node of the new list that is ALLOC or
MAPPED and whose size is at least `total`. -/
theorem place_returns (hs : Nat) (s1 : State) (total : Nat) (ff : Option Nat)
    (ex : Option (Nat × State)) (counter : Nat)
    (hff : ∀ i, ff = some i →
      ∃ b, s1.blocks[i]? = some b ∧ b.status = Status.FREE ∧ total ≤ b.size)
    (hex : ex = none ∨ ex = expand_last s1 total) :
    ∃ (i : Nat) (b : Block), (place hs s1 total ff ex counter).2.blocks[i]? = some b ∧
      (place hs s1 total ff ex counter).1 = some (alignment_memory (b.addr + hs)) ∧
      (b.status = Status.ALLOC ∨ b.status = Status.MAPPED) ∧ total ≤ b.size := by
  have initcase : ∃ (i : Nat) (b : Block),
      (place hs s1 total none none counter).2.blocks[i]? = some b ∧
      (place hs s1 total none none counter).1 = some (alignment_memory (b.addr + hs)) ∧
      (b.status = Status.ALLOC ∨ b.status = Status.MAPPED) ∧ total ≤ b.size := by
    obtain ⟨hi, nb, tl, hbl, hst, hsz⟩ := init_memory_and_block_shape hs s1 total counter
    have hg : (init_memory_and_block hs s1 total counter).2.blocks[
        (init_memory_and_block hs s1 total counter).1]? = some nb := by
      rw [hi, hbl]; exact get_at_split _ _ _
    refine ⟨_, nb, hg, payload_of_get hs _ _ nb hg, hst, ?_⟩
    rcases hsz with ⟨h, _⟩ | ⟨h1, h2, _⟩ | ⟨_, h, _⟩ <;> omega
  cases ff with
  | some i =>
    obtain ⟨b, hb, hf, ht⟩ := hff i rfl
    obtain ⟨pre, post, sz, tl, _, hlen, hl2, hcase⟩ := best_fit_shape hs s1.blocks i total b hb
    have hg : (set_status (split_block hs s1.blocks i total) i Status.ALLOC)[i]? =
        some { addr := b.addr, size := sz, status := Status.ALLOC } := by
      rw [hl2, ← hlen, List.append_assoc]
      exact get_at_split _ _ _
    refine ⟨i, _, hg, payload_of_get hs _ _ _ hg, Or.inl rfl, ?_⟩
    rcases hcase with ⟨_, h, _⟩ | ⟨_, h, _⟩ <;> simp only [h] <;> omega
  | none =>
    rcases hex with hex | hex
    · rw [hex]; exact initcase
    · rcases expand_last_shape s1 total with ⟨hn, _⟩ | ⟨pre, b, _, _, hsome⟩
      · rw [hex, hn]; exact initcase
      · rw [hex, hsome]
        have hg : (pre ++ [({ addr := b.addr, size := total, status := Status.ALLOC } :
            Block)])[pre.length]? = some { addr := b.addr, size := total, status := Status.ALLOC } :=
          get_at_split _ _ _
        exact ⟨pre.length, _, hg, payload_of_get hs _ _ _ hg, Or.inl rfl, le_refl _⟩

/-! ## No two adjacent FREE nodes after `os_malloc` and `os_calloc` -/

theorem naf_cons (x : Block) (l : List Block) :
    no_adjacent_free (x :: l) ↔
      (∀ y ∈ l.head?, ¬ (x.status = Status.FREE ∧ y.status = Status.FREE)) ∧
        no_adjacent_free l := by
  unfold no_adjacent_free
  exact List.chain'_cons'

theorem coalesce_loop_fixed (cur : Block) (l : List Block)
    (h : no_adjacent_free (cur :: l)) : coalesce_loop cur l = cur :: l := by
  induction l generalizing cur with
  | nil => rfl
  | cons nxt rest ih =>
    rw [naf_cons] at h
    obtain ⟨hh, hr⟩ := h
    have hn : ¬ (cur.status = Status.FREE ∧ nxt.status = Status.FREE) := hh nxt (by simp)
    unfold coalesce_loop
    rw [if_neg hn, ih nxt hr]

theorem coalesce_fixed (l : List Block) (h : no_adjacent_free l) : coalesce l = l := by
  cases l with
  | nil => rfl
  | cons b rest => exact coalesce_loop_fixed b rest h

theorem coalesce_loop_run (f : Block) (run rest : List Block)
    (hf : f.status = Status.FREE) (hrun : ∀ x ∈ run, x.status = Status.FREE)
    (hrest : ∀ y ∈ rest.head?, y.status ≠ Status.FREE) :
    coalesce_loop f (run ++ rest) =
      { addr := f.addr, size := f.size + sum_sizes run, status := Status.FREE } ::
        coalesce rest := by
  induction run generalizing f with
  | nil =>
    have e : ({ addr := f.addr, size := f.size + sum_sizes [], status := Status.FREE } : Block)
        = f := by
      cases f
      simp only [sum_sizes, List.map_nil, List.sum_nil, Nat.add_zero] at *
      rw [hf]
    rw [e, List.nil_append]
    cases rest with
    | nil => rfl
    | cons c r =>
      have hc : c.status ≠ Status.FREE := hrest c (by simp)
      unfold coalesce_loop
      rw [if_neg (fun h => hc h.2)]
      rfl
  | cons x run2 ih =>
    have hx : x.status = Status.FREE := hrun x (List.mem_cons_self _ _)
    have hr : ∀ y ∈ run2, y.status = Status.FREE :=
      fun y hy => hrun y (List.mem_cons_of_mem _ hy)
    rw [List.cons_append]
    unfold coalesce_loop
    rw [if_pos ⟨hf, hx⟩, ih { f with size := f.size + x.size } hf hr]
    simp only [sum_sizes_cons, Nat.add_assoc]

theorem mem_of_get (l : List Block) (j : Nat) (c : Block) (h : l[j]? = some c) : c ∈ l := by
  obtain ⟨pre, post, e, _⟩ := get_split l j c h
  rw [e]; simp

/-- Loop invariant of `find_free_block`: the result is either the incoming `best`, when
no candidate of the remaining list is smaller, or a candidate of the remaining list that
is strictly smaller than the incoming `best`, no larger than any other candidate, and the
earliest of its size. -/
theorem find_free_loop_best (t : Nat) (l : List Block) (i : Nat) (best : Option (Nat × Nat))
    (k sz : Nat) (h : find_free_loop t l i best = some (k, sz)) :
    (best = some (k, sz) ∧ ∀ c ∈ l, c.status = Status.FREE → t ≤ c.size → sz ≤ c.size) ∨
    (i ≤ k ∧ ∃ b, l[k - i]? = some b ∧ b.status = Status.FREE ∧ t ≤ b.size ∧ b.size = sz ∧
      (∀ j0 s0, best = some (j0, s0) → sz < s0) ∧
      ∀ j c, l[j]? = some c → c.status = Status.FREE → t ≤ c.size →
        sz ≤ c.size ∧ (c.size = sz → k - i ≤ j)) := by
  induction l generalizing i best with
  | nil => left; exact ⟨by simpa [find_free_loop] using h, by simp⟩
  | cons c rest ih =>
    -- the recursive call keeps `best`
    have keep : find_free_loop t rest (i + 1) best = some (k, sz) →
        (c.status = Status.FREE → t ≤ c.size → ∃ j0 s0, best = some (j0, s0) ∧ s0 ≤ c.size) →
        (best = some (k, sz) ∧
          ∀ d ∈ c :: rest, d.status = Status.FREE → t ≤ d.size → sz ≤ d.size) ∨
        (i ≤ k ∧ ∃ b, (c :: rest)[k - i]? = some b ∧ b.status = Status.FREE ∧ t ≤ b.size ∧
          b.size = sz ∧ (∀ j0 s0, best = some (j0, s0) → sz < s0) ∧
          ∀ j d, (c :: rest)[j]? = some d → d.status = Status.FREE → t ≤ d.size →
            sz ≤ d.size ∧ (d.size = sz → k - i ≤ j)) := by
      intro h2 hc
      rcases ih (i + 1) best h2 with ⟨e, hall⟩ | ⟨hik, b, hb, hf, ht, hsz, hlt, hmin⟩
      · left
        refine ⟨e, ?_⟩
        intro d hd hdf hdt
        rcases List.mem_cons.mp hd with rfl | hd
        · obtain ⟨j0, s0, hbest, hle⟩ := hc hdf hdt
          rw [e] at hbest
          simp only [Option.some.injEq, Prod.mk.injEq] at hbest
          omega
        · exact hall d hd hdf hdt
      · right
        refine ⟨by omega, b, ?_, hf, ht, hsz, hlt, ?_⟩
        · have : k - i = (k - (i + 1)) + 1 := by omega
          rw [this]; simpa using hb
        · intro j d hd hdf hdt
          cases j with
          | zero =>
            simp only [List.getElem?_cons_zero, Option.some.injEq] at hd
            subst hd
            obtain ⟨j0, s0, hbest, hle⟩ := hc hdf hdt
            have h1 := hlt j0 s0 hbest
            exact ⟨by omega, fun e => by omega⟩
          | succ j =>
            simp only [List.getElem?_cons_succ] at hd
            obtain ⟨h1, h2⟩ := hmin j d hd hdf hdt
            exact ⟨h1, fun e => by have := h2 e; omega⟩
    -- the recursive call takes the head as the new best
    have take : find_free_loop t rest (i + 1) (some (i, c.size)) = some (k, sz) →
        c.status = Status.FREE → t ≤ c.size →
        (∀ j0 s0, best = some (j0, s0) → c.size < s0) →
        (i ≤ k ∧ ∃ b, (c :: rest)[k - i]? = some b ∧ b.status = Status.FREE ∧ t ≤ b.size ∧
          b.size = sz ∧ (∀ j0 s0, best = some (j0, s0) → sz < s0) ∧
          ∀ j d, (c :: rest)[j]? = some d → d.status = Status.FREE → t ≤ d.size →
            sz ≤ d.size ∧ (d.size = sz → k - i ≤ j)) := by
      intro h2 hcf hct hbetter
      rcases ih (i + 1) (some (i, c.size)) h2 with
        ⟨e, hall⟩ | ⟨hik, b, hb, hf, ht, hsz, hlt, hmin⟩
      · simp only [Option.some.injEq, Prod.mk.injEq] at e
        obtain ⟨rfl, rfl⟩ := e
        refine ⟨le_refl _, c, by simp, hcf, hct, rfl, hbetter, ?_⟩
        intro j d hd hdf hdt
        cases j with
        | zero =>
          simp only [List.getElem?_cons_zero, Option.some.injEq] at hd
          subst hd
          exact ⟨le_refl _, fun _ => by omega⟩
        | succ j =>
          simp only [List.getElem?_cons_succ] at hd
          exact ⟨hall d (mem_of_get rest j d hd) hdf hdt, fun _ => by omega⟩
      · have hlt2 : sz < c.size := hlt i c.size rfl
        refine ⟨by omega, b, ?_, hf, ht, hsz, ?_, ?_⟩
        · have : k - i = (k - (i + 1)) + 1 := by omega
          rw [this]; simpa using hb
        · intro j0 s0 hbest
          have := hbetter j0 s0 hbest
          omega
        · intro j d hd hdf hdt
          cases j with
          | zero =>
            simp only [List.getElem?_cons_zero, Option.some.injEq] at hd
            subst hd
            exact ⟨by omega, fun e => by omega⟩
          | succ j =>
            simp only [List.getElem?_cons_succ] at hd
            obtain ⟨h1, h2⟩ := hmin j d hd hdf hdt
            exact ⟨h1, fun e => by have := h2 e; omega⟩
    unfold find_free_loop at h
    by_cases hc : c.status = Status.FREE ∧ c.size ≥ t
    · rw [if_pos hc] at h
      cases best with
      | none =>
        simp only at h
        exact Or.inr (take h hc.1 hc.2 (by simp))
      | some js =>
        obtain ⟨j0, s0⟩ := js
        simp only at h
        by_cases hlt : c.size < s0
        · rw [if_pos hlt] at h
          refine Or.inr (take h hc.1 hc.2 ?_)
          intro j1 s1 e
          simp only [Option.some.injEq, Prod.mk.injEq] at e
          omega
        · rw [if_neg hlt] at h
          exact keep h (fun _ _ => ⟨j0, s0, rfl, by omega⟩)
    · rw [if_neg hc] at h
      exact keep h (fun hf ht => absurd ⟨hf, ht⟩ hc)

theorem find_free_block_best (l : List Block) (t k : Nat)
    (h : find_free_block l t = some k) :
    ∃ b, l[k]? = some b ∧ b.status = Status.FREE ∧ t ≤ b.size ∧
      ∀ j c, l[j]? = some c → c.status = Status.FREE → t ≤ c.size →
        b.size ≤ c.size ∧ (c.size = b.size → k ≤ j) := by
  unfold find_free_block at h
  cases hr : find_free_loop t l 0 none with
  | none => rw [hr] at h; simp at h
  | some ks =>
    obtain ⟨k2, sz⟩ := ks
    rw [hr] at h
    simp only [Option.map_some', Option.some.injEq] at h
    subst h
    rcases find_free_loop_best t l 0 none k2 sz hr with ⟨e, _⟩ | ⟨_, b, hb, hf, ht, hsz, _, hmin⟩
    · simp at e
    · refine ⟨b, by simpa using hb, hf, ht, ?_⟩
      intro j c hc hcf hct
      obtain ⟨h1, h2⟩ := hmin j c hc hcf hct
      rw [hsz]
      exact ⟨h1, fun e => by have := h2 e; omega⟩

/-! ## Sizes of MAPPED nodes -/

theorem mapped_ok_of_not_mapped (b : Block) (h : b.status ≠ Status.MAPPED) : mapped_ok b :=
  fun hm => absurd hm h

theorem update_at_mem_at (f : Block → Block) (P : Block → Prop) (l : List Block) (i : Nat)
    (h : ∀ b ∈ l, P b) (hi : ∀ b, l[i]? = some b → P (f b)) :
    ∀ b ∈ update_at f l i, P b := by
  induction l generalizing i with
  | nil => simp [update_at]
  | cons c rest ih =>
    have hc : P c := h c (List.mem_cons_self _ _)
    have hr : ∀ b ∈ rest, P b := fun b hb => h b (List.mem_cons_of_mem _ hb)
    cases i with
    | zero =>
      intro b hb
      simp only [update_at, List.mem_cons] at hb
      rcases hb with rfl | hb
      · exact hi c (by simp)
      · exact hr b hb
    | succ i =>
      intro b hb
      simp only [update_at, List.mem_cons] at hb
      rcases hb with rfl | hb
      · exact hc
      · exact ih i hr (fun b hb => hi b (by simpa using hb)) b hb

theorem split_block_mapped_ok (hs : Nat) (l : List Block) (i t : Nat)
    (h : ∀ b ∈ l, mapped_ok b) (hi : ∀ b, l[i]? = some b → b.status ≠ Status.MAPPED) :
    ∀ b ∈ split_block hs l i t, mapped_ok b := by
  induction l generalizing i with
  | nil => simp [split_block]
  | cons c rest ih =>
    have hc : mapped_ok c := h c (List.mem_cons_self _ _)
    have hr : ∀ b ∈ rest, mapped_ok b := fun b hb => h b (List.mem_cons_of_mem _ hb)
    cases i with
    | zero =>
      have hcm : c.status ≠ Status.MAPPED := hi c (by simp)
      unfold split_block
      by_cases hsp : wsub c.size t > hs
      · rw [if_pos hsp]
        intro b hb
        simp only [List.mem_cons] at hb
        rcases hb with rfl | rfl | hb
        · exact mapped_ok_of_not_mapped _ hcm
        · exact mapped_ok_of_not_mapped _ (fun e => Status.noConfusion e)
        · exact hr b hb
      · rw [if_neg hsp]; exact h
    | succ i =>
      intro b hb
      simp only [split_block, List.mem_cons] at hb
      rcases hb with rfl | hb
      · exact hc
      · exact ih i hr (fun b hb => hi b (by simpa using hb)) b hb

theorem set_status_mapped_ok (l : List Block) (i : Nat) (st : Status)
    (hst : st ≠ Status.MAPPED) (h : ∀ b ∈ l, mapped_ok b) :
    ∀ b ∈ set_status l i st, mapped_ok b :=
  update_at_mem (fun b => { b with status := st }) mapped_ok
    (fun _ _ => mapped_ok_of_not_mapped _ hst) l i h

theorem set_size_mapped_ok (l : List Block) (i t : Nat)
    (h : ∀ b ∈ l, mapped_ok b) (hi : ∀ b, l[i]? = some b → b.status ≠ Status.MAPPED) :
    ∀ b ∈ set_size l i t, mapped_ok b :=
  update_at_mem_at (fun b => { b with size := t }) mapped_ok l i h
    (fun b hb => mapped_ok_of_not_mapped _ (hi b hb))

theorem set_status_get_status (l : List Block) (i : Nat) (st : Status) (b : Block)
    (h : (set_status l i st)[i]? = some b) : b.status = st := by
  unfold set_status at h
  cases hg : l[i]? with
  | none =>
    have hlen : (update_at (fun b => { b with status := st }) l i).length = l.length :=
      update_at_length _ _ _
    have h1 : i < (update_at (fun b => { b with status := st }) l i).length := by
      by_contra hc
      rw [List.getElem?_eq_none (by omega)] at h
      simp at h
    have h2 : l.length ≤ i := by
      by_contra hc
      rw [List.getElem?_eq_getElem (by omega)] at hg
      simp at hg
    omega
  | some c =>
    rw [update_at_get_self _ l i c hg] at h
    simp only [Option.some.injEq] at h
    rw [← h]

theorem coalesce_if_nonempty_mapped_ok (l : List Block) (h : ∀ b ∈ l, mapped_ok b) :
    ∀ b ∈ coalesce_if_nonempty l, mapped_ok b := by
  rw [coalesce_if_nonempty_eq]
  refine coalesce_mem mapped_ok ?_ l h
  intro a b ha _ hm
  have := ha hm
  simp only
  omega

theorem coalesce_realloc_mapped_ok (l : List Block) (i : Nat)
    (h : ∀ b ∈ l, mapped_ok b) : ∀ b ∈ coalesce_realloc l i, mapped_ok b := by
  induction l generalizing i with
  | nil => simp [coalesce_realloc]
  | cons c rest ih =>
    cases rest with
    | nil => simpa [coalesce_realloc] using h
    | cons d rest2 =>
      have hc : mapped_ok c := h c (List.mem_cons_self _ _)
      have hr : ∀ b ∈ d :: rest2, mapped_ok b := fun b hb => h b (List.mem_cons_of_mem _ hb)
      cases i with
      | zero =>
        intro b hb
        simp only [coalesce_realloc, List.mem_cons] at hb
        rcases hb with rfl | hb
        · intro hm
          have := hc hm
          simp only
          omega
        · exact hr b (List.mem_cons_of_mem _ hb)
      | succ i =>
        intro b hb
        simp only [coalesce_realloc, List.mem_cons] at hb
        rcases hb with rfl | hb
        · exact hc
        · exact ih i hr b (by simpa using hb)

theorem init_memory_and_block_mapped_ok (hs : Nat) (s : State) (t counter : Nat)
    (h : ∀ b ∈ s.blocks, mapped_ok b) :
    ∀ b ∈ (init_memory_and_block hs s t counter).2.blocks, mapped_ok b := by
  unfold init_memory_and_block
  by_cases h1 : t < (if counter = 0 then MMAP_THRESHOLD else size_map)
  · simp only [if_pos h1]
    by_cases h2 : s.prealloc_heap = false
    · simp only [if_pos h2]
      intro b hb
      rcases List.mem_append.mp hb with hb | hb
      · exact h b hb
      · exact split_block_mapped_ok hs _ 0 t
          (fun x hx => by
            simp only [List.mem_singleton] at hx
            subst hx
            exact mapped_ok_of_not_mapped _ (fun e => Status.noConfusion e))
          (fun x hx => by
            simp only [List.getElem?_cons_zero, Option.some.injEq] at hx
            subst hx
            exact fun e => Status.noConfusion e) b hb
    · simp only [if_neg h2]
      intro b hb
      rcases List.mem_append.mp hb with hb | hb
      · exact h b hb
      · simp only [List.mem_singleton] at hb
        subst hb
        exact mapped_ok_of_not_mapped _ (fun e => Status.noConfusion e)
  · simp only [if_neg h1]
    intro b hb
    rcases List.mem_append.mp hb with hb | hb
    · exact h b hb
    · simp only [List.mem_singleton] at hb
      subst hb
      intro _
      simp only
      by_cases hc : counter = 0
      · simp only [hc, if_true] at h1
        unfold MMAP_THRESHOLD at h1; unfold size_map; omega
      · simp only [if_neg hc] at h1
        omega

theorem os_free_mapped_ok (hs : Nat) (s : State) (ptr : Option Nat)
    (h : ∀ b ∈ s.blocks, mapped_ok b) : ∀ b ∈ (os_free hs s ptr).blocks, mapped_ok b := by
  unfold os_free
  cases ptr with
  | none => exact h
  | some p =>
    simp only
    cases header_of hs s.blocks p with
    | none => exact h
    | some i =>
      simp only
      cases s.blocks[i]? with
      | none => exact h
      | some b =>
        simp only
        by_cases hm : b.status = Status.MAPPED
        · rw [if_pos hm]
          simp only
          cases find_block_meta s.blocks (p - hs) with
          | none =>
            intro x hx
            exact h x (List.mem_of_mem_drop hx)
          | some j =>
            intro x hx
            simp only [List.mem_append] at hx
            rcases hx with hx | hx
            · exact h x (List.mem_of_mem_take hx)
            · exact h x (List.mem_of_mem_drop hx)
        · rw [if_neg hm]
          exact set_status_mapped_ok _ _ _ (fun e => Status.noConfusion e) h

theorem place_mapped_ok (hs : Nat) (s1 : State) (t : Nat) (ff : Option Nat)
    (ex : Option (Nat × State)) (counter : Nat)
    (h : ∀ b ∈ s1.blocks, mapped_ok b)
    (hff : ∀ i, ff = some i →
      ∃ b, s1.blocks[i]? = some b ∧ b.status = Status.FREE ∧ t ≤ b.size)
    (hex : ex = none ∨ ex = expand_last s1 t) :
    ∀ b ∈ (place hs s1 t ff ex counter).2.blocks, mapped_ok b := by
  cases ff with
  | some i =>
    obtain ⟨b, hb, hf, _⟩ := hff i rfl
    refine set_status_mapped_ok _ _ _ (fun e => Status.noConfusion e)
      (split_block_mapped_ok hs _ _ _ h ?_)
    intro c hc
    rw [hb] at hc
    simp only [Option.some.injEq] at hc
    rw [← hc, hf]
    exact fun e => Status.noConfusion e
  | none =>
    cases hx : ex with
    | none => exact init_memory_and_block_mapped_ok hs s1 t counter h
    | some r =>
      obtain ⟨i, s2⟩ := r
      rcases hex with hex | hex
      · rw [hex] at hx; simp at hx
      · rw [hex] at hx
        rcases expand_last_shape s1 t with ⟨hn, _⟩ | ⟨pre, b, hl, _, hsome⟩
        · rw [hn] at hx; simp at hx
        · rw [hsome] at hx
          simp only [Option.some.injEq, Prod.mk.injEq] at hx
          obtain ⟨_, rfl⟩ := hx
          intro x hxm
          rcases List.mem_append.mp hxm with hxm | hxm
          · exact h x (by rw [hl]; exact List.mem_append_left _ hxm)
          · rw [List.mem_singleton.mp hxm]
            exact mapped_ok_of_not_mapped _ (fun e => Status.noConfusion e)

theorem old_block_get (hs : Nat) (l : List Block) (p io : Nat) (old : Block)
    (h : old_block hs l p = some (io, old)) : l[io]? = some old := by
  unfold old_block at h
  cases hh : header_of hs l p with
  | none => rw [hh] at h; simp at h
  | some i =>
    rw [hh] at h
    simp only at h
    cases hg : l[i]? with
    | none => rw [hg] at h; simp at h
    | some b =>
      rw [hg] at h
      simp only [Option.map_some', Option.some.injEq, Prod.mk.injEq] at h
      obtain ⟨rfl, rfl⟩ := h
      exact hg

theorem find_free_block_not_mapped (l : List Block) (t i : Nat)
    (h : find_free_block l t = some i) :
    ∀ b, l[i]? = some b → b.status ≠ Status.MAPPED := by
  obtain ⟨b, hb, hf, _⟩ := find_free_block_some l t i h
  intro c hc
  rw [hb] at hc
  simp only [Option.some.injEq] at hc
  rw [← hc, hf]
  exact fun e => Status.noConfusion e

theorem os_malloc_mapped_ok (hs : Nat) (s : State) (size : Nat)
    (h : ∀ b ∈ s.blocks, mapped_ok b) :
    ∀ b ∈ (os_malloc hs s size).2.blocks, mapped_ok b := by
  by_cases h0 : size = 0
  · subst h0; simpa [os_malloc] using h
  · rw [os_malloc_eq_place hs s size h0]
    exact place_mapped_ok hs _ _ _ _ 0 (coalesce_if_nonempty_mapped_ok _ h)
      (fun i hi => find_free_block_some _ _ i hi) (Or.inr rfl)

theorem os_calloc_mapped_ok (hs : Nat) (s : State) (nmemb size : Nat)
    (h : ∀ b ∈ s.blocks, mapped_ok b) :
    ∀ b ∈ (os_calloc hs s nmemb size).2.blocks, mapped_ok b := by
  by_cases h0 : nmemb = 0 ∨ size = 0
  · simpa [os_calloc, h0] using h
  · rw [os_calloc_eq_place hs s nmemb size h0]
    refine place_mapped_ok hs _ _ _ _ 1 (coalesce_if_nonempty_mapped_ok _ h) ?_ ?_
    · intro i hi
      by_cases hlt : size < size_map
      · rw [if_pos hlt] at hi; exact find_free_block_some _ _ i hi
      · rw [if_neg hlt] at hi; exact absurd hi (by simp)
    · by_cases hlt : size < size_map
      · rw [if_pos hlt]; exact Or.inr rfl
      · rw [if_neg hlt]; exact Or.inl rfl

theorem realloc_into_free_mapped_ok (hs : Nat) (s : State) (p i t n : Nat) (release : Bool)
    (h : ∀ b ∈ s.blocks, mapped_ok b)
    (hi : ∀ b, s.blocks[i]? = some b → b.status ≠ Status.MAPPED) :
    ∀ b ∈ (realloc_into_free hs s p i t n release).2.blocks, mapped_ok b := by
  have h2 := set_status_mapped_ok _ i Status.ALLOC (fun e => Status.noConfusion e)
    (split_block_mapped_ok hs s.blocks i t h hi)
  cases release with
  | true =>
    simp only [realloc_into_free, if_true]
    refine os_free_mapped_ok hs _ _ ?_
    exact h2
  | false =>
    simp only [realloc_into_free, Bool.false_eq_true, if_false]
    exact h2

theorem realloc_into_new_mapped_ok (hs : Nat) (s : State) (p t n : Nat)
    (h : ∀ b ∈ s.blocks, mapped_ok b) :
    ∀ b ∈ (realloc_into_new hs s p t n).2.blocks, mapped_ok b := by
  have h2 := init_memory_and_block_mapped_ok hs s t 0 h
  simp only [realloc_into_new]
  refine os_free_mapped_ok hs _ _ ?_
  exact h2

theorem realloc_relocate_mapped_ok (hs : Nat) (s : State) (p size t : Nat) (old : Block)
    (h : ∀ b ∈ s.blocks, mapped_ok b) :
    ∀ b ∈ (realloc_relocate hs s p size t old).2.blocks, mapped_ok b := by
  unfold realloc_relocate
  cases hf : find_free_block s.blocks t with
  | some i =>
    exact realloc_into_free_mapped_ok hs s p i t _ true h
      (find_free_block_not_mapped _ _ i hf)
  | none =>
    simp only
    cases (if t < MMAP_THRESHOLD then find_last_block_free s.blocks else none) with
    | some i =>
      refine os_free_mapped_ok hs _ _ ?_
      exact set_status_mapped_ok s.blocks i Status.ALLOC (fun e => Status.noConfusion e) h
    | none => exact realloc_into_new_mapped_ok hs s p t _ h

theorem realloc_grow_heap_mapped_ok (hs : Nat) (s : State) (p size t io : Nat) (old : Block)
    (h : ∀ b ∈ s.blocks, mapped_ok b) (hold : s.blocks[io]? = some old) :
    ∀ b ∈ (realloc_grow_heap hs s p size t io old).2.blocks, mapped_ok b := by
  unfold realloc_grow_heap
  by_cases h1 : io + 1 = s.blocks.length ∧ old.status ≠ Status.MAPPED
  · rw [if_pos h1]
    refine set_size_mapped_ok s.blocks io t h ?_
    intro c hc
    rw [hold] at hc
    simp only [Option.some.injEq] at hc
    rw [← hc]; exact h1.2
  · rw [if_neg h1]
    cases s.blocks[io + 1]? with
    | none => exact realloc_relocate_mapped_ok hs s p size t old h
    | some nxt =>
      simp only
      by_cases h2 : nxt.status = Status.FREE
      · rw [if_pos h2]
        by_cases h3 : old.size + nxt.size ≥ t
        · rw [if_pos h3]
          exact coalesce_realloc_mapped_ok s.blocks io h
        · rw [if_neg h3]
          cases hf : find_free_block s.blocks t with
          | some i =>
            exact realloc_into_free_mapped_ok hs s p i t _ false h
              (find_free_block_not_mapped _ _ i hf)
          | none => exact realloc_into_new_mapped_ok hs s p t _ h
      · rw [if_neg h2]
        exact realloc_relocate_mapped_ok hs s p size t old h

theorem realloc_dispatch_mapped_ok (hs : Nat) (s : State) (p size t io : Nat) (old : Block)
    (h : ∀ b ∈ s.blocks, mapped_ok b) (hold : s.blocks[io]? = some old) :
    ∀ b ∈ (realloc_dispatch hs s p size t io old).2.blocks, mapped_ok b := by
  have hfree : ∀ b ∈ (match find_free_block s.blocks t with
      | some i => realloc_into_free hs s p i t size true
      | none => realloc_into_new hs s p t size).2.blocks, mapped_ok b := by
    cases hf : find_free_block s.blocks t with
    | some i =>
      exact realloc_into_free_mapped_ok hs s p i t _ true h
        (find_free_block_not_mapped _ _ i hf)
    | none => exact realloc_into_new_mapped_ok hs s p t _ h
  unfold realloc_dispatch
  split_ifs with c1 c2 c3 c4 c5
  · exact hfree
  · refine set_status_mapped_ok _ io Status.ALLOC (fun e => Status.noConfusion e)
      (split_block_mapped_ok hs s.blocks io t h ?_)
    intro c hc
    rw [hold] at hc
    simp only [Option.some.injEq] at hc
    rw [← hc, c2.2]
    exact fun e => Status.noConfusion e
  · exact realloc_into_new_mapped_ok hs s p t _ h
  · exact realloc_grow_heap_mapped_ok hs s p size t io old h hold
  · exact hfree
  · exact h

theorem os_realloc_mapped_ok (hs : Nat) (s : State) (ptr : Option Nat) (size : Nat)
    (h : ∀ b ∈ s.blocks, mapped_ok b) :
    ∀ b ∈ (os_realloc hs s ptr size).2.blocks, mapped_ok b := by
  unfold os_realloc
  by_cases h0 : size = 0
  · rw [if_pos h0]; exact os_free_mapped_ok hs s ptr h
  · rw [if_neg h0]
    cases ptr with
    | none => exact os_malloc_mapped_ok hs s size h
    | some p =>
      simp only
      cases old_block hs s.blocks p with
      | none => exact h
      | some r =>
        obtain ⟨i0, old0⟩ := r
        simp only
        split_ifs
        · exact h
        · exact h
        · have hc := coalesce_if_nonempty_mapped_ok _ h
          cases ho : old_block hs (coalesce_if_nonempty s.blocks) p with
          | none => exact hc
          | some r2 =>
            obtain ⟨io, old⟩ := r2
            exact realloc_dispatch_mapped_ok hs _ p size _ io old hc
              (old_block_get hs _ p io old ho)

/-- Every MAPPED node of a reachable state has size at least `size_map`. -/
theorem reach_mapped_ok (hs brk0 map0 : Nat) (exact : Bool) (s : State)
    (hr : Reach hs brk0 map0 exact s) : ∀ b ∈ s.blocks, mapped_ok b := by
  induction hr with
  | init => simp [init_state]
  | malloc s size _ _ _ ih => exact os_malloc_mapped_ok hs s size ih
  | calloc s nmemb size _ _ _ _ ih => exact os_calloc_mapped_ok hs s nmemb size ih
  | realloc s ptr size _ _ _ _ ih => exact os_realloc_mapped_ok hs s ptr size ih
  | free s ptr _ _ ih => exact os_free_mapped_ok hs s ptr ih

/-! ## The settled claims -/

/-- C1 as stated fails: with a 32-byte header, take the reachable state after
`os_malloc(131032)` from the initial state (one ALLOC node of size `MMAP_THRESHOLD`, flag
set).  The request `size = 2^64 - 33` has `size + 32 = 2^64 - 1`, which does not overflow,
but the rounding to a multiple of 8 wraps the total to 0: no FREE node exists, the last
node is not FREE, and `init_memory_and_block(0, 0)` calls `sbrk(0)` and returns a node
whose size field is 0.  No node of the list has room for `size` bytes. -/
theorem os_malloc_rounding_wraps :
    Reach 32 1000 4096 true (os_malloc 32 (init_state 1000 4096) 131032).2 ∧
    18446744073709551583 + 32 < WORD ∧
    os_malloc 32 (os_malloc 32 (init_state 1000 4096) 131032).2 18446744073709551583 =
      (some 132104, ⟨[⟨1000, 131072, Status.ALLOC⟩, ⟨132072, 0, Status.ALLOC⟩], true, 132072,
        4096, [0, 131072, 0], [], []⟩) ∧
    ∀ b ∈ (os_malloc 32 (os_malloc 32 (init_state 1000 4096) 131032).2
        18446744073709551583).2.blocks,
      b.size < 18446744073709551583 + 32 := by
  refine ⟨Reach.malloc _ _ Reach.init (by decide) (fun _ => by decide), by decide, by decide,
    by decide⟩

/-- C1 (amended): for every state (in particular every reachable one) and every
`size > 0` for which the rounded total `round8(size + hs)` is computed without wrap-around,
`os_malloc(size)` returns the payload pointer `alignment_memory(header + hs)` of a node
that is on the list afterwards, whose status is ALLOC or MAPPED, and whose size field is
at least the total, hence at least `size + hs`. -/
theorem os_malloc_returns_block (hs : Nat) (s : State) (size : Nat) (hsz : 0 < size)
    (hw : up8 (size + hs) < WORD) :
    ∃ (i : Nat) (b : Block), (os_malloc hs s size).2.blocks[i]? = some b ∧
      (os_malloc hs s size).1 = some (alignment_memory (b.addr + hs)) ∧
      (b.status = Status.ALLOC ∨ b.status = Status.MAPPED) ∧
      total_size hs size ≤ b.size ∧ total_size hs size = up8 (size + hs) ∧
      size + hs ≤ b.size := by
  rw [os_malloc_eq_place hs s size (Nat.pos_iff_ne_zero.mp hsz)]
  obtain ⟨i, b, h1, h2, h3, h4⟩ := place_returns hs
    { s with blocks := coalesce_if_nonempty s.blocks } (total_size hs size)
    (find_free_block (coalesce_if_nonempty s.blocks) (total_size hs size))
    (expand_last { s with blocks := coalesce_if_nonempty s.blocks } (total_size hs size)) 0
    (fun i hi => find_free_block_some _ _ i hi) (Or.inr rfl)
  have he := total_size_exact hs size hw
  have hge := up8_ge (size + hs)
  exact ⟨i, b, h1, h2, h3, h4, he, by omega⟩

/-- Witness for C1 (amended): `os_malloc(100)` after the first `os_malloc(100)`. -/
theorem os_malloc_returns_block_witness :
    ∃ (i : Nat) (b : Block),
      (os_malloc 32 ⟨[⟨1000, 136, Status.ALLOC⟩, ⟨1136, 130936, Status.FREE⟩], true, 132072,
        4096, [0, 131072], [], []⟩ 100).2.blocks[i]? = some b ∧
      (os_malloc 32 ⟨[⟨1000, 136, Status.ALLOC⟩, ⟨1136, 130936, Status.FREE⟩], true, 132072,
        4096, [0, 131072], [], []⟩ 100).1 = some (alignment_memory (b.addr + 32)) ∧
      (b.status = Status.ALLOC ∨ b.status = Status.MAPPED) ∧
      total_size 32 100 ≤ b.size ∧ total_size 32 100 = up8 (100 + 32) ∧
      100 + 32 ≤ b.size :=
  os_malloc_returns_block 32
    ⟨[⟨1000, 136, Status.ALLOC⟩, ⟨1136, 130936, Status.FREE⟩], true, 132072,
        4096, [0, 131072], [], []⟩ 100 (by decide) (by decide)

/-- C2 as stated fails, with a 32-byte header, in two list states.  After
`p = os_malloc(131032); os_free(p)` the list holds one FREE node of size `MMAP_THRESHOLD`;
`os_malloc(131040)` (total exactly `MMAP_THRESHOLD`) is then placed in that node by the
best-fit search and returned with status ALLOC.  After the first `os_malloc(100)` the list
ends in a FREE node; `os_malloc(200000)` (total 200032) then extends that node with `sbrk`
and returns it with status ALLOC.  In both cases no MAPPED node exists afterwards. -/
theorem os_malloc_large_from_heap :
    (MMAP_THRESHOLD ≤ total_size 32 131040 ∧
      os_malloc 32 (os_free 32 (os_malloc 32 (init_state 1000 4096) 131032).2 (some 1032))
          131040 =
        (some 1032, ⟨[⟨1000, 131072, Status.ALLOC⟩], true, 132072, 4096, [0, 131072],
          [], []⟩)) ∧
    (MMAP_THRESHOLD ≤ total_size 32 200000 ∧
      os_malloc 32 (os_malloc 32 (init_state 1000 4096) 100).2 200000 =
        (some 1168, ⟨[⟨1000, 136, Status.ALLOC⟩, ⟨1136, 200032, Status.ALLOC⟩], true, 201168,
          4096, [0, 131072, 69096], [], []⟩)) := by
  decide

/-- C2 (amended): for every state in which, after the coalescing pass, no FREE node has
size at least the total and the list is empty or its last node is not FREE, and every
`n > 0` whose total is at least `MMAP_THRESHOLD`, `os_malloc(n)` appends one MAPPED node of
size total, obtained from `mmap`, and returns its payload pointer. -/
theorem os_malloc_large_is_mapped (hs : Nat) (s : State) (n : Nat) (hn : 0 < n)
    (hT : MMAP_THRESHOLD ≤ total_size hs n)
    (hfree : ∀ b ∈ coalesce_if_nonempty s.blocks,
      b.status = Status.FREE → b.size < total_size hs n)
    (hlast : ∀ b, (coalesce_if_nonempty s.blocks).getLast? = some b →
      b.status ≠ Status.FREE) :
    os_malloc hs s n =
      (some (alignment_memory (page_up s.mmap_next + hs)),
        { s with
            blocks := coalesce_if_nonempty s.blocks ++
              [{ addr := page_up s.mmap_next, size := total_size hs n,
                 status := Status.MAPPED }],
            mmap_next := page_up s.mmap_next + total_size hs n }) := by
  rw [os_malloc_eq_place hs s n (Nat.pos_iff_ne_zero.mp hn)]
  rw [find_free_block_none_of _ _ hfree]
  have hex : expand_last { s with blocks := coalesce_if_nonempty s.blocks }
      (total_size hs n) = none := by
    rcases expand_last_shape { s with blocks := coalesce_if_nonempty s.blocks }
      (total_size hs n) with ⟨h, _⟩ | ⟨pre, b, hb, hf, _⟩
    · exact h
    · exfalso
      simp only at hb
      exact hlast b (by rw [hb]; simp) hf
  rw [hex]
  have hnl : ¬ total_size hs n < MMAP_THRESHOLD := Nat.not_lt.mpr hT
  simp [place, init_memory_and_block, hnl, payload]

/-- Witness for C2 (amended): `os_malloc(200000)` when the list holds one ALLOC node. -/
theorem os_malloc_large_is_mapped_witness :
    os_malloc 32 ⟨[⟨1000, 131072, Status.ALLOC⟩], true, 132072, 4096, [0, 131072], [], []⟩
        200000 =
      (some (alignment_memory (page_up 4096 + 32)),
        ⟨coalesce_if_nonempty [⟨1000, 131072, Status.ALLOC⟩] ++
            [⟨page_up 4096, total_size 32 200000, Status.MAPPED⟩],
          true, 132072, page_up 4096 + total_size 32 200000, [0, 131072], [], []⟩) :=
  os_malloc_large_is_mapped 32
    ⟨[⟨1000, 131072, Status.ALLOC⟩], true, 132072, 4096, [0, 131072], [], []⟩ 200000
    (by decide) (by decide) (by decide) (by decide)

/-- C4: `os_malloc(0)`, `os_calloc(0, s)` and `os_calloc(n, 0)` return `NULL` and leave the
whole state (list, statuses, sizes, preallocation flag, break, logs) as it was. -/
theorem zero_request_returns_null (hs : Nat) (s : State) (n sz : Nat) :
    os_malloc hs s 0 = (none, s) ∧ os_calloc hs s 0 sz = (none, s) ∧
      os_calloc hs s n 0 = (none, s) := by
  refine ⟨?_, ?_, ?_⟩ <;> simp [os_malloc, os_calloc]

/-- C5: `os_free(NULL)` changes nothing, and `os_free(p)` for the payload `p` of a node
`b` (at index `i`) that is not MAPPED only rewrites the status of that node to FREE:
the list keeps its length, node `i` keeps its address and size, every other node is
untouched, and neither the break, the flag nor the `munmap` log changes. -/
theorem os_free_sets_status_only (hs : Nat) (s : State) (p i : Nat) (b : Block)
    (hh : header_of hs s.blocks p = some i) (hb : s.blocks[i]? = some b)
    (hm : b.status ≠ Status.MAPPED) :
    os_free hs s none = s ∧
    os_free hs s (some p) = { s with blocks := set_status s.blocks i Status.FREE } ∧
    (os_free hs s (some p)).blocks.length = s.blocks.length ∧
    (os_free hs s (some p)).blocks[i]? = some { b with status := Status.FREE } ∧
    (∀ j, j ≠ i → (os_free hs s (some p)).blocks[j]? = s.blocks[j]?) := by
  have e : os_free hs s (some p) = { s with blocks := set_status s.blocks i Status.FREE } := by
    unfold os_free
    simp only [hh, hb, hm, if_false]
  refine ⟨rfl, e, ?_, ?_, ?_⟩
  · rw [e]; exact update_at_length _ _ _
  · rw [e]; exact update_at_get_self _ _ _ _ hb
  · intro j hj
    rw [e]; exact update_at_get_other _ _ _ _ hj

/-- Witness for C5: freeing the first block of a two-block heap. -/
theorem os_free_sets_status_only_witness :
    (os_free 32 ⟨[⟨1000, 136, Status.ALLOC⟩, ⟨1136, 130936, Status.FREE⟩], true, 132072,
        4096, [0, 131072], [], []⟩ (some 1032)).blocks[0]? =
      some ⟨1000, 136, Status.FREE⟩ :=
  (os_free_sets_status_only 32
    ⟨[⟨1000, 136, Status.ALLOC⟩, ⟨1136, 130936, Status.FREE⟩], true, 132072,
        4096, [0, 131072], [], []⟩ 1032 0 ⟨1000, 136, Status.ALLOC⟩
    (by decide) (by decide) (by decide)).2.2.2.1

/-- C6: `os_free` on the payload of a MAPPED node `b` (anywhere in the list) yields the
old list without `b`, all other nodes unchanged and in order, and performs one `munmap`
call, on the header address with length `b.size`.  In particular, from the empty state
(header size a multiple of 8) `p = os_malloc(200000); os_free(p)` unmaps
`200000 + hs` bytes and leaves the list empty. -/
theorem os_free_mapped_unlinks_and_unmaps (hs : Nat) (s : State) (pre post : List Block)
    (b : Block) (hl : s.blocks = pre ++ b :: post) (hm : b.status = Status.MAPPED)
    (hu : ∀ x ∈ pre ++ post, x.addr ≠ b.addr) :
    os_free hs s (some (b.addr + hs)) =
        { s with blocks := pre ++ post,
                 munmap_log := s.munmap_log ++ [(b.addr, b.size)] } ∧
    (hs % 8 = 0 → 200000 + hs < WORD → ∀ brk0 map0 : Nat,
      os_free hs (os_malloc hs (init_state brk0 map0) 200000).2
          (os_malloc hs (init_state brk0 map0) 200000).1 =
        { init_state brk0 map0 with
            mmap_next := page_up map0 + (200000 + hs),
            munmap_log := [(page_up map0, 200000 + hs)] }) := by
  refine ⟨os_free_unlinks hs s pre post b hl hm hu, ?_⟩
  intro h8 hw brk0 map0
  have hup : up8 (200000 + hs) = 200000 + hs := by unfold up8; omega
  have hts : total_size hs 200000 = 200000 + hs := by
    rw [total_size_exact hs 200000 (by rw [hup]; exact hw), hup]
  have hT : MMAP_THRESHOLD ≤ total_size hs 200000 := by
    rw [hts]; unfold MMAP_THRESHOLD; omega
  rw [os_malloc_empty_mapped hs brk0 map0 200000 (by decide) hT, hts]
  have hal : alignment_memory (page_up map0 + hs) = page_up map0 + hs :=
    alignment_memory_aligned _ (by have := page_up_mod8 map0; omega)
  simp only [hal]
  have := os_free_unlinks hs
    { init_state brk0 map0 with
        mmap_next := page_up map0 + (200000 + hs),
        blocks := [{ addr := page_up map0, size := 200000 + hs, status := Status.MAPPED }] }
    [] [] { addr := page_up map0, size := 200000 + hs, status := Status.MAPPED }
    rfl rfl (by simp)
  simpa [init_state] using this

/-- Witness for C6: a MAPPED node between two heap nodes. -/
theorem os_free_mapped_unlinks_and_unmaps_witness :
    os_free 32 ⟨[⟨1000, 136, Status.ALLOC⟩, ⟨8192, 200032, Status.MAPPED⟩,
          ⟨1136, 48, Status.ALLOC⟩], true, 132072, 208224, [0, 131072], [], []⟩
        (some (8192 + 32)) =
      ⟨[⟨1000, 136, Status.ALLOC⟩, ⟨1136, 48, Status.ALLOC⟩], true, 132072, 208224,
        [0, 131072], [] ++ [(8192, 200032)], []⟩ :=
  (os_free_mapped_unlinks_and_unmaps 32
    ⟨[⟨1000, 136, Status.ALLOC⟩, ⟨8192, 200032, Status.MAPPED⟩,
          ⟨1136, 48, Status.ALLOC⟩], true, 132072, 208224, [0, 131072], [], []⟩
    [⟨1000, 136, Status.ALLOC⟩] [⟨1136, 48, Status.ALLOC⟩] ⟨8192, 200032, Status.MAPPED⟩
    rfl rfl (by decide)).1

/-- C7 fails on the code: with a 32-byte header, `p = os_calloc(1, 4096)` maps a node of
size 4128 (a reachable state, no request wraps around), and `os_realloc(p, 4104)`
(total 4136) finds no FREE node, so it calls `init_memory_and_block(4136, 0)`, which
preallocates and splits: the new ALLOC node has its header at 1000 and payload
`[1032, 5136)`, and the header of the FREE remainder starts at 5136.  The copy that follows
is `memmove(1032, p, find_minimum(4128, 4136))`, 4128 bytes, which ends at 5160: it runs
24 bytes into the header of the FREE remainder, the size field included when the header
starts with it.  The list operations of this embedding record the call and do not see
that write. -/
theorem os_realloc_copy_overruns_next_header :
    Reach 32 1000 4096 true (os_calloc 32 (init_state 1000 4096) 1 4096).2 ∧
    up8 (1 * 4096 + 32) < WORD ∧ up8 (4104 + 32) < WORD ∧ total_size 32 4104 = 4136 ∧
    (init_memory_and_block 32 (os_calloc 32 (init_state 1000 4096) 1 4096).2 4136 0).2.blocks =
      [⟨4096, 4128, Status.MAPPED⟩, ⟨1000, 4136, Status.ALLOC⟩,
        ⟨5136, 126936, Status.FREE⟩] ∧
    (os_realloc 32 (os_calloc 32 (init_state 1000 4096) 1 4096).2 (some 4128) 4104).1 =
      Ret.ptr (some 1032) ∧
    (os_realloc 32 (os_calloc 32 (init_state 1000 4096) 1 4096).2 (some 4128)
        4104).2.memmove_log = [(1032, 4128, 4128)] ∧
    1000 + 4136 = 5136 ∧ 1032 + 4128 = 5136 + 24 := by
  refine ⟨Reach.calloc _ _ _ Reach.init (by decide) (by decide) (fun _ => by decide),
    by decide, by decide, by decide, by decide, by decide, by decide, by decide, by decide⟩

/-- C9: for the payload pointer `p` of a node `b` that is ALLOC or MAPPED, whose size is a
multiple of 8 above the header size (itself a multiple of 8), `os_realloc(p, b.size - hs)`
returns `p` and leaves the whole state unchanged; more generally `os_realloc(p, sz)`
returns `p` and changes nothing whenever the total computed for `sz` equals `b.size`. -/
theorem os_realloc_same_size (hs : Nat) (s : State) (p i : Nat) (b : Block)
    (hh : old_block hs s.blocks p = some (i, b))
    (hst : b.status = Status.ALLOC ∨ b.status = Status.MAPPED)
    (h8 : b.size % 8 = 0) (hgt : hs < b.size) (hhs : hs % 8 = 0) (hw : b.size < WORD) :
    os_realloc hs s (some p) (b.size - hs) = (Ret.ptr (some p), s) ∧
    ∀ sz, total_size hs sz = b.size → os_realloc hs s (some p) sz = (Ret.ptr (some p), s) := by
  have hnf : b.status ≠ Status.FREE := by
    rcases hst with h | h <;> rw [h] <;> decide
  have gen : ∀ sz, total_size hs sz = b.size →
      os_realloc hs s (some p) sz = (Ret.ptr (some p), s) := by
    intro sz ht
    have hsz : sz ≠ 0 := by
      intro h0
      subst h0
      unfold total_size round8 wadd WORD at ht
      unfold WORD at hw
      omega
    unfold os_realloc
    simp only [if_neg hsz, hh, if_neg hnf, ht, if_true]
  refine ⟨gen _ ?_, gen⟩
  unfold total_size round8 wadd WORD
  unfold WORD at hw
  have e : b.size - hs + hs = b.size := by omega
  rw [e]
  omega

/-- Witness for C9: the block obtained by the first `os_malloc(100)`. -/
theorem os_realloc_same_size_witness :
    os_realloc 32 ⟨[⟨1000, 136, Status.ALLOC⟩, ⟨1136, 130936, Status.FREE⟩], true, 132072,
        4096, [0, 131072], [], []⟩ (some 1032) (136 - 32) =
      (Ret.ptr (some 1032),
        ⟨[⟨1000, 136, Status.ALLOC⟩, ⟨1136, 130936, Status.FREE⟩], true, 132072,
        4096, [0, 131072], [], []⟩) :=
  (os_realloc_same_size 32
    ⟨[⟨1000, 136, Status.ALLOC⟩, ⟨1136, 130936, Status.FREE⟩], true, 132072,
        4096, [0, 131072], [], []⟩ 1032 0 ⟨1000, 136, Status.ALLOC⟩
    (by decide) (by decide) (by decide) (by decide) (by decide) (by decide)).1

/-- C15: `find_free_block` returns `NULL` exactly when no node is FREE with size at least
the requested total; otherwise it returns a node that is FREE (never ALLOC or MAPPED),
has size at least the total, is no larger than any other such node, and comes first in
list order among the nodes of that minimal size. -/
theorem find_free_block_best_fit (l : List Block) (t : Nat) :
    (find_free_block l t = none ↔ ∀ b ∈ l, ¬ (b.status = Status.FREE ∧ t ≤ b.size)) ∧
    ∀ k, find_free_block l t = some k →
      ∃ b, l[k]? = some b ∧ b.status = Status.FREE ∧ t ≤ b.size ∧
        ∀ j c, l[j]? = some c → c.status = Status.FREE → t ≤ c.size →
          b.size ≤ c.size ∧ (c.size = b.size → k ≤ j) := by
  refine ⟨⟨?_, ?_⟩, fun k hk => find_free_block_best l t k hk⟩
  · intro h b hb hc
    have := find_free_block_none l t h b hb hc.1
    omega
  · intro h
    exact find_free_block_none_of l t (fun b hb hf => by
      by_contra hge
      exact h b hb ⟨hf, by omega⟩)

/-- C17: `coalesce` leaves every node that is not FREE in place (it is a barrier: the
nodes before and after it are merged on their own), replaces a maximal run of FREE nodes
`f :: run` (followed by nothing or by a node that is not FREE) by one FREE node at the
address of `f` whose size is the sum of the run, produces a list without two consecutive
FREE nodes, preserves the sum of the sizes, and is idempotent. -/
theorem coalesce_merges_runs (l pre post run rest : List Block) (b f : Block)
    (hb : b.status ≠ Status.FREE) (hf : f.status = Status.FREE)
    (hrun : ∀ x ∈ run, x.status = Status.FREE)
    (hrest : ∀ y ∈ rest.head?, y.status ≠ Status.FREE) :
    coalesce (pre ++ b :: post) = coalesce pre ++ b :: coalesce post ∧
    coalesce (f :: run ++ rest) =
      { addr := f.addr, size := f.size + sum_sizes run, status := Status.FREE } ::
        coalesce rest ∧
    no_adjacent_free (coalesce l) ∧
    sum_sizes (coalesce l) = sum_sizes l ∧
    coalesce (coalesce l) = coalesce l :=
  ⟨coalesce_split pre post b hb, coalesce_loop_run f run rest hf hrun hrest,
    coalesce_no_adjacent_free l, coalesce_sum l,
    coalesce_fixed _ (coalesce_no_adjacent_free l)⟩

/-- Witness for C17: a run of three FREE nodes between two ALLOC nodes. -/
theorem coalesce_merges_runs_witness :
    coalesce [⟨1000, 40, Status.ALLOC⟩, ⟨1040, 40, Status.FREE⟩, ⟨1080, 48, Status.FREE⟩,
        ⟨1128, 56, Status.FREE⟩, ⟨1184, 40, Status.ALLOC⟩] =
      [⟨1000, 40, Status.ALLOC⟩, ⟨1040, 144, Status.FREE⟩, ⟨1184, 40, Status.ALLOC⟩] ∧
    coalesce ((⟨1040, 40, Status.FREE⟩ : Block) ::
        [⟨1080, 48, Status.FREE⟩, ⟨1128, 56, Status.FREE⟩] ++ [⟨1184, 40, Status.ALLOC⟩]) =
      ⟨1040, 40 + sum_sizes [⟨1080, 48, Status.FREE⟩, ⟨1128, 56, Status.FREE⟩], Status.FREE⟩ ::
        coalesce [⟨1184, 40, Status.ALLOC⟩] :=
  ⟨by decide,
    (coalesce_merges_runs [] [] [] [⟨1080, 48, Status.FREE⟩, ⟨1128, 56, Status.FREE⟩]
      [⟨1184, 40, Status.ALLOC⟩] ⟨1000, 40, Status.ALLOC⟩ ⟨1040, 40, Status.FREE⟩
      (by decide) rfl (by decide) (by decide)).2.1⟩

/-- C11 fails on the code: with a 32-byte header, after `a = os_malloc(8)`,
`b = os_malloc(8)`, `c = os_malloc(8)`, `os_free(b)` (a reachable state), `os_realloc(a, 100)`
finds the FREE successor too small to absorb, places the request in the FREE tail by best
fit and returns the payload 1152 of that other node, but never calls `os_free` on the old
pointer: the old node (header 1000) is still ALLOC when `os_realloc` returns. -/
theorem os_realloc_relocation_keeps_old :
    Reach 32 1000 4096 true
      (os_free 32 (os_malloc 32 (os_malloc 32 (os_malloc 32 (init_state 1000 4096) 8).2 8).2
        8).2 (some 1072)) ∧
    os_realloc 32
        (os_free 32 (os_malloc 32 (os_malloc 32 (os_malloc 32 (init_state 1000 4096) 8).2 8).2
          8).2 (some 1072)) (some 1032) 100 =
      (Ret.ptr (some 1152),
        ⟨[⟨1000, 40, Status.ALLOC⟩, ⟨1040, 40, Status.FREE⟩, ⟨1080, 40, Status.ALLOC⟩,
          ⟨1120, 136, Status.ALLOC⟩, ⟨1256, 130816, Status.FREE⟩],
          true, 132072, 4096, [0, 131072], [], [(1152, 1032, 40)]⟩) := by
  refine ⟨Reach.free _ _
    (Reach.malloc _ _ (Reach.malloc _ _ (Reach.malloc _ _ Reach.init (by decide)
      (fun _ => by decide)) (by decide) (fun _ => by decide)) (by decide)
      (fun _ => by decide))
    (Or.inr ⟨1072, 1, ⟨1040, 40, Status.ALLOC⟩, rfl, by decide, by decide⟩), by decide⟩

/-- C12 fails on the code, with a 32-byte header.  After `a = os_malloc(8)`,
`b = os_malloc(8)`, the call `os_realloc(a, 100)` relocates by best fit and copies
`find_minimum(old->size, size) = 40` bytes out of a payload of `40 - 32 = 8` bytes.  And
after `p = os_malloc(200000)` (a MAPPED node of size 200032), `os_realloc(p, 300000)` copies
`size = 300000` bytes out of a payload of 200000 bytes. -/
theorem os_realloc_copies_past_payload :
    ((os_malloc 32 (os_malloc 32 (init_state 1000 4096) 8).2 8).2.blocks =
        [⟨1000, 40, Status.ALLOC⟩, ⟨1040, 40, Status.ALLOC⟩, ⟨1080, 130992, Status.FREE⟩] ∧
      (os_realloc 32 (os_malloc 32 (os_malloc 32 (init_state 1000 4096) 8).2 8).2
          (some 1032) 100).2.memmove_log = [(1112, 1032, 40)] ∧
      40 - 32 < 40) ∧
    ((os_malloc 32 (init_state 1000 4096) 200000).2.blocks =
        [⟨4096, 200032, Status.MAPPED⟩] ∧
      (os_realloc 32 (os_malloc 32 (init_state 1000 4096) 200000).2
          (some 4128) 300000).2.memmove_log = [(204832, 4128, 300000)] ∧
      200032 - 32 < 300000) := by
  decide

/-- C13 as stated fails: with a 32-byte header, `os_calloc(1, 4096)` from the initial
state has total 4128, at least `size_map`, and is served by `mmap`: the reachable state
holds a MAPPED node of size 4128, below `MMAP_THRESHOLD`.  For `os_realloc(p, 100)` on it
(total 136) the first four conditions of the dispatch are false and the last one holds,
so the final branch is taken: the data is moved to the break heap and the mapping is
released. -/
theorem os_calloc_maps_below_threshold :
    Reach 32 1000 4096 true (os_calloc 32 (init_state 1000 4096) 1 4096).2 ∧
    (os_calloc 32 (init_state 1000 4096) 1 4096).2.blocks = [⟨4096, 4128, Status.MAPPED⟩] ∧
    4128 < MMAP_THRESHOLD ∧
    (¬ (4128 > total_size 32 100 ∧ 4128 > MMAP_THRESHOLD) ∧
      ¬ ((4128 > total_size 32 100 ∧ 4128 < MMAP_THRESHOLD) ∧
          Status.MAPPED = Status.ALLOC) ∧
      ¬ (4128 < total_size 32 100 ∧ 4128 > MMAP_THRESHOLD) ∧
      ¬ (4128 < total_size 32 100 ∧ 4128 < MMAP_THRESHOLD) ∧
      (4128 > total_size 32 100 ∧ 4128 < MMAP_THRESHOLD ∧
          Status.MAPPED = Status.MAPPED)) ∧
    os_realloc 32 (os_calloc 32 (init_state 1000 4096) 1 4096).2 (some 4128) 100 =
      (Ret.ptr (some 1032),
        ⟨[⟨1000, 136, Status.ALLOC⟩, ⟨1136, 130936, Status.FREE⟩], true, 132072, 8224,
          [0, 131072], [(4096, 4128)], [(1032, 4128, 100)]⟩) := by
  refine ⟨Reach.calloc _ _ _ Reach.init (by decide) (by decide) (fun _ => by decide),
    by decide, by decide, by decide, by decide⟩

/-- C13 (amended): in every state reachable through the four public operations, every
node whose status is MAPPED has size at least `size_map = 4096`, the threshold that
`os_calloc` passes to `init_memory_and_block`. -/
theorem reachable_mapped_sizes (hs brk0 map0 : Nat) (exact : Bool) (s : State)
    (hr : Reach hs brk0 map0 exact s) :
    ∀ b ∈ s.blocks, b.status = Status.MAPPED → size_map ≤ b.size :=
  fun b hb hm => reach_mapped_ok hs brk0 map0 exact s hr b hb hm

/-- Witness for C13 (amended): the node mapped by `os_calloc(1, 4096)`. -/
theorem reachable_mapped_sizes_witness :
    size_map ≤ Block.size ⟨4096, 4128, Status.MAPPED⟩ :=
  reachable_mapped_sizes 32 1000 4096 true (os_calloc 32 (init_state 1000 4096) 1 4096).2
    (Reach.calloc _ _ _ Reach.init (by decide) (by decide) (fun _ => by decide))
    ⟨4096, 4128, Status.MAPPED⟩ (by decide) rfl

/-- C14 fails on the code: with a 32-byte header, after `a = os_malloc(8)`,
`b = os_malloc(8)` (a reachable state), `os_realloc(a, 131000)` (total 131032) finds no fit,
extends the FREE tail by `sbrk(40)` and marks it ALLOC without updating its size field.
Afterwards the break heap holds 131112 bytes obtained from `sbrk`, the size fields of the
nodes that are not MAPPED add up to 131072, and the last node ends at
`1080 + 130992 = 132072`, below the break 132112. -/
theorem os_realloc_extension_breaks_tiling :
    Reach 32 1000 4096 true (os_malloc 32 (os_malloc 32 (init_state 1000 4096) 8).2 8).2 ∧
    (os_realloc 32 (os_malloc 32 (os_malloc 32 (init_state 1000 4096) 8).2 8).2
        (some 1032) 131000).2 =
      ⟨[⟨1000, 40, Status.FREE⟩, ⟨1040, 40, Status.ALLOC⟩, ⟨1080, 130992, Status.ALLOC⟩],
        true, 132112, 4096, [0, 131072, 40], [], [(1112, 1032, 40)]⟩ ∧
    heap_bytes (os_realloc 32 (os_malloc 32 (os_malloc 32 (init_state 1000 4096) 8).2 8).2
        (some 1032) 131000).2.blocks = 131072 ∧
    (os_realloc 32 (os_malloc 32 (os_malloc 32 (init_state 1000 4096) 8).2 8).2
        (some 1032) 131000).2.sbrk_log.sum = 131112 ∧
    1080 + 130992 < (os_realloc 32 (os_malloc 32 (os_malloc 32 (init_state 1000 4096) 8).2 8).2
        (some 1032) 131000).2.brk := by
  refine ⟨Reach.malloc _ _ (Reach.malloc _ _ Reach.init (by decide) (fun _ => by decide))
    (by decide) (fun _ => by decide), by decide, by decide, by decide, by decide⟩

/-- C19 fails on the code: with a 32-byte header, `p = os_malloc(131032)` preallocates and
keeps the whole chunk, an ALLOC node of size exactly `MMAP_THRESHOLD`.  For
`os_realloc(p, 8)` (total 40, different from the old size) every condition of the
`if` / `else if` chain compares the old size strictly with `MMAP_THRESHOLD`, none holds,
and the function returns `new_memory_block` without having assigned it. -/
theorem os_realloc_threshold_size_unassigned :
    Reach 32 1000 4096 true (os_malloc 32 (init_state 1000 4096) 131032).2 ∧
    (os_malloc 32 (init_state 1000 4096) 131032) =
      (some 1032, ⟨[⟨1000, 131072, Status.ALLOC⟩], true, 132072, 4096, [0, 131072],
        [], []⟩) ∧
    total_size 32 8 ≠ 131072 ∧
    (os_realloc 32 (os_malloc 32 (init_state 1000 4096) 131032).2 (some 1032) 8).1 =
      Ret.undef := by
  refine ⟨Reach.malloc _ _ Reach.init (by decide) (fun _ => by decide), by decide,
    by decide, by decide⟩

/-- C20 fails on the code: with a 32-byte header, after `a = os_malloc(8)`,
`b = os_malloc(8)`, the call `os_realloc(a, 131000)` extends the FREE tail by a break
adjustment and returns its payload 1112, but the size field of that node stays 130992,
below the total 131032 computed for the request. -/
theorem os_realloc_extension_keeps_size :
    total_size 32 131000 = 131032 ∧
    (os_realloc 32 (os_malloc 32 (os_malloc 32 (init_state 1000 4096) 8).2 8).2
        (some 1032) 131000).1 = Ret.ptr (some 1112) ∧
    (os_realloc 32 (os_malloc 32 (os_malloc 32 (init_state 1000 4096) 8).2 8).2
        (some 1032) 131000).2.blocks[2]? = some ⟨1080, 130992, Status.ALLOC⟩ ∧
    alignment_memory (1080 + 32) = 1112 ∧
    ∀ b ∈ (os_realloc 32 (os_malloc 32 (os_malloc 32 (init_state 1000 4096) 8).2 8).2
        (some 1032) 131000).2.blocks, b.size < total_size 32 131000 := by
  decide

end OsMem
